import Mathlib

/-!
Shallow embedding of the Simple-Router-API core (app/paper.py, app/market.py,
app/ws_server.py, app/storage.py, app/config.py, app/main.py) together with
theorems checking the natural-language specification against it.

Python dictionaries are modelled as insertion-ordered association lists
(matching CPython dict semantics: lookup finds the unique key, assignment of
an existing key updates in place, assignment of a new key appends at the end).
Python floats are modelled as exact rationals.
-/

namespace Router

/-- Association list standing for a Python dict (insertion ordered). -/
abbrev AList (K V : Type) := List (K × V)

/-- Dict lookup: first entry with the given key. -/
def alistGet {K V : Type} [DecidableEq K] : AList K V → K → Option V
  | [], _ => none
  | p :: rest, k => if p.1 = k then some p.2 else alistGet rest k

/-- Dict assignment: update the first entry with the key in place, else append. -/
def alistSet {K V : Type} [DecidableEq K] : AList K V → K → V → AList K V
  | [], k, v => [(k, v)]
  | p :: rest, k, v => if p.1 = k then (k, v) :: rest else p :: alistSet rest k v

theorem alistGet_set_self {K V : Type} [DecidableEq K] (d : AList K V) (k : K) (v : V) :
    alistGet (alistSet d k v) k = some v := by
  induction d with
  | nil => simp [alistGet, alistSet]
  | cons p rest ih =>
    by_cases h : p.1 = k <;> simp [alistGet, alistSet, h, ih]

theorem alistGet_set_ne {K V : Type} [DecidableEq K] (d : AList K V) (k k' : K) (v : V)
    (h : k' ≠ k) : alistGet (alistSet d k v) k' = alistGet d k' := by
  have h2 : ¬(k = k') := fun hh => h hh.symm
  induction d with
  | nil => simp [alistGet, alistSet, h2]
  | cons p rest ih =>
    by_cases hp : p.1 = k
    · have h3 : ¬(p.1 = k') := by rw [hp]; exact h2
      simp [alistSet, alistGet, hp, h2, h3]
    · simp [alistSet, alistGet, hp, ih]

theorem mem_alistSet {K V : Type} [DecidableEq K] (d : AList K V) (k : K) (v : V)
    (q : K × V) (hq : q ∈ alistSet d k v) : q ∈ d ∨ q = (k, v) := by
  induction d with
  | nil =>
    simp [alistSet] at hq
    simp [hq]
  | cons p rest ih =>
    by_cases hp : p.1 = k
    · simp [alistSet, hp] at hq
      rcases hq with h | h
      · right; exact h
      · left; simp [h]
    · simp [alistSet, hp] at hq
      rcases hq with h | h
      · left; simp [h]
      · rcases ih h with h' | h'
        · left; simp [h']
        · right; exact h'

theorem alistSet_of_get_none {K V : Type} [DecidableEq K] (d : AList K V) (k : K) (v : V)
    (h : alistGet d k = none) : alistSet d k v = d ++ [(k, v)] := by
  induction d with
  | nil => simp [alistSet]
  | cons p rest ih =>
    by_cases hp : p.1 = k
    · simp [alistGet, hp] at h
    · simp [alistGet, hp] at h
      simp [alistSet, hp, ih h]

theorem alistGet_mem {K V : Type} [DecidableEq K] (d : AList K V) (k : K) (v : V)
    (h : alistGet d k = some v) : (k, v) ∈ d := by
  induction d with
  | nil => simp [alistGet] at h
  | cons p rest ih =>
    by_cases hp : p.1 = k
    · simp [alistGet, hp] at h
      have hpkv : p = (k, v) := Prod.ext hp h
      rw [← hpkv]
      exact List.mem_cons_self _ _
    · simp [alistGet, hp] at h
      exact List.mem_cons_of_mem _ (ih h)

/-- Python str.endswith on the character sequence of a string. -/
def strEndsWith (s suffix : String) : Bool :=
  suffix.data.isSuffixOf s.data

/-- Python slice s[:-n] (drop the last n characters). -/
def strDropRight (s : String) (n : ℕ) : String :=
  String.mk (s.data.take (s.data.length - n))

/-- Python slice s[-n:] (keep the last n characters). -/
def strTakeRight (s : String) (n : ℕ) : String :=
  String.mk (s.data.drop (s.data.length - n))

/-- split_symbol from app/config.py: suffix matching over USDT, USD, USDC with a
    last-three-characters fallback. -/
def split_symbol (symbol : String) : String × String :=
  if strEndsWith symbol "USDT" then (strDropRight symbol 4, "USDT")
  else if strEndsWith symbol "USD" then (strDropRight symbol 3, "USD")
  else if strEndsWith symbol "USDC" then (strDropRight symbol 4, "USDC")
  else (strDropRight symbol 3, strTakeRight symbol 3)

/-- Balance dataclass from app/state.py. -/
structure Balance where
  total : ℚ := 0
  available : ℚ := 0
deriving DecidableEq, Repr

/-- Order dataclass from app/state.py (eleven fields). -/
structure Order where
  token_id : String
  username : String
  symbol : String
  side : String
  price : ℚ
  quantity : ℚ
  status : String := "open"
  filled_price : Option ℚ := none
  reason : Option String := none
  reserved_amount : ℚ := 0
  created_at : ℚ := 0
deriving DecidableEq, Repr

/-- User dataclass from app/state.py. -/
structure User where
  username : String
  password_hash : String
deriving DecidableEq, Repr

/-- Persisted slice of AppState from app/state.py (users, balances, orders and
    the open-order index; market snapshot fields are not touched by the paper
    engine nor persisted). -/
structure AppState where
  users : AList String User := []
  balances : AList String (AList String Balance) := []
  orders : AList String Order := []
  open_orders_by_symbol : AList String (List String) := []
deriving DecidableEq, Repr

/-- Balance lookup defaulting to a fresh Balance() (app/paper.py _get_balance
    read part). -/
def lookupBalance (bs : AList String (AList String Balance)) (u a : String) : Balance :=
  match alistGet bs u with
  | some ub => (alistGet ub a).getD {}
  | none => {}

/-- Read-modify-write of one balance with setdefault insertion semantics
    (app/paper.py _get_balance followed by in-place mutation). -/
def updBalance (bs : AList String (AList String Balance)) (u a : String)
    (f : Balance → Balance) : AList String (AList String Balance) :=
  let ub := (alistGet bs u).getD []
  let b := (alistGet ub a).getD {}
  alistSet bs u (alistSet ub a (f b))

theorem lookupBalance_updBalance (bs : AList String (AList String Balance))
    (u a u' a' : String) (f : Balance → Balance) :
    lookupBalance (updBalance bs u a f) u' a' =
      if u = u' ∧ a = a' then f (lookupBalance bs u a) else lookupBalance bs u' a' := by
  by_cases hu : u = u'
  · subst hu
    by_cases ha : a = a'
    · subst ha
      cases hub : alistGet bs u with
      | none => simp [lookupBalance, updBalance, hub, alistGet_set_self, alistGet]
      | some ub => simp [lookupBalance, updBalance, hub, alistGet_set_self]
    · cases hub : alistGet bs u with
      | none =>
        simp [lookupBalance, updBalance, hub, alistGet_set_self, alistSet, alistGet, ha]
      | some ub =>
        simp [lookupBalance, updBalance, hub, alistGet_set_self, ha,
          alistGet_set_ne ub a a' _ (Ne.symm ha)]
  · simp only [lookupBalance, updBalance]
    rw [alistGet_set_ne _ _ _ _ (Ne.symm hu)]
    simp [hu]

/-- Reservation step of app/paper.py _reserve_for_order, returning the updated
    balances together with (ok, reserved, reason). -/
def reserve_for_order (bs : AList String (AList String Balance))
    (username side symbol : String) (price qty : ℚ) :
    AList String (AList String Balance) × Bool × ℚ × String :=
  let bq := split_symbol symbol
  if side = "buy" then
    let cost := price * qty
    let bs1 := updBalance bs username bq.2 id
    let bal := lookupBalance bs1 username bq.2
    if bal.available < cost then (bs1, false, 0, "insufficient " ++ bq.2 ++ " balance")
    else (updBalance bs1 username bq.2 (fun b => { b with available := b.available - cost }),
      true, cost, "")
  else
    let bs1 := updBalance bs username bq.1 id
    let bal := lookupBalance bs1 username bq.1
    if bal.available < qty then (bs1, false, 0, "insufficient " ++ bq.1 ++ " balance")
    else (updBalance bs1 username bq.1 (fun b => { b with available := b.available - qty }),
      true, qty, "")

/-- Release step of app/paper.py _release_reserve: the reserve returns to the
    available of the quote asset for a buy, of the base asset otherwise. -/
def release_reserve (bs : AList String (AList String Balance))
    (username side symbol : String) (reserved : ℚ) : AList String (AList String Balance) :=
  let bq := split_symbol symbol
  if side = "buy" then
    updBalance bs username bq.2 (fun b => { b with available := b.available + reserved })
  else
    updBalance bs username bq.1 (fun b => { b with available := b.available + reserved })

/-- Fill step of app/paper.py _apply_fill, updating balances in source order. -/
def apply_fill (bs : AList String (AList String Balance))
    (username side symbol : String) (price qty reserved : ℚ) :
    AList String (AList String Balance) :=
  let bq := split_symbol symbol
  if side = "buy" then
    let cost := price * qty
    let bs1 := updBalance bs username bq.2 (fun b => { b with total := b.total - cost })
    let bs2 := updBalance bs1 username bq.1
      (fun b => { b with total := b.total + qty, available := b.available + qty })
    if reserved > cost then
      updBalance bs2 username bq.2
        (fun b => { b with available := b.available + (reserved - cost) })
    else bs2
  else
    let bs1 := updBalance bs username bq.1 (fun b => { b with total := b.total - qty })
    updBalance bs1 username bq.2
      (fun b => { b with total := b.total + price * qty, available := b.available + price * qty })

/-- Deposit from app/paper.py: credit both total and available. -/
def deposit (s : AppState) (username asset : String) (amount : ℚ) : AppState :=
  let bs := updBalance s.balances username asset
    (fun b => { b with total := b.total + amount, available := b.available + amount })
  { s with balances := bs }

/-- place_order from app/paper.py, returning the new state with
    (ok, order, reason). -/
def place_order (s : AppState) (username token_id symbol side : String)
    (price qty created_at : ℚ) : AppState × Bool × Option Order × String :=
  if (alistGet s.orders token_id).isSome then (s, false, none, "token_id already exists")
  else
    let r := reserve_for_order s.balances username side symbol price qty
    if r.2.1 then
      let order : Order :=
        { token_id := token_id, username := username, symbol := symbol, side := side,
          price := price, quantity := qty, status := "open", filled_price := none,
          reason := none, reserved_amount := r.2.2.1, created_at := created_at }
      let oo := alistSet s.open_orders_by_symbol symbol
        (((alistGet s.open_orders_by_symbol symbol).getD []) ++ [token_id])
      let s1 : AppState :=
        { s with
          balances := r.1
          orders := alistSet s.orders token_id order
          open_orders_by_symbol := oo }
      (s1, true, some order, "")
    else ({ s with balances := r.1 }, false, none, r.2.2.2)

/-- cancel_order from app/paper.py, returning the new state with (ok, reason). -/
def cancel_order (s : AppState) (username token_id : String) : AppState × Bool × String :=
  match alistGet s.orders token_id with
  | none => (s, false, "order not found")
  | some order =>
    if order.username ≠ username then (s, false, "order not found")
    else if order.status ≠ "open" then (s, false, "order is not open")
    else
      let order1 : Order := { order with status := "cancelled" }
      let bs := release_reserve s.balances username order.side order.symbol
        order.reserved_amount
      let oo := match alistGet s.open_orders_by_symbol order.symbol with
        | some lst => alistSet s.open_orders_by_symbol order.symbol
            (lst.filter (fun tid => tid ≠ token_id))
        | none => s.open_orders_by_symbol
      let s1 : AppState :=
        { s with
          orders := alistSet s.orders token_id order1
          balances := bs
          open_orders_by_symbol := oo }
      (s1, true, "")

/-- Fill-price decision of app/paper.py execute_on_best_touch lines 144-150. -/
def fill_price_for (o : Order) (best_bid best_ask : Option ℚ) : Option ℚ :=
  if o.side = "buy" then
    match best_ask with
    | some a => if a ≤ o.price then some a else none
    | none => none
  else if o.side = "sell" then
    match best_bid with
    | some b => if o.price ≤ b then some b else none
    | none => none
  else none

/-- Per-order body of the execute_on_best_touch loop (app/paper.py lines
    139-160): re-validate the order is still open, decide the fill price and
    apply the fill with index removal. -/
def exec_one (best_bid best_ask : Option ℚ) (s : AppState) (token_id : String) : AppState :=
  match alistGet s.orders token_id with
  | none => s
  | some order =>
    if order.status ≠ "open" then s
    else
      match fill_price_for order best_bid best_ask with
      | none => s
      | some fp =>
        let order1 : Order := { order with status := "filled", filled_price := some fp }
        let bs := apply_fill s.balances order.username order.side order.symbol
          fp order.quantity order.reserved_amount
        let oo := match alistGet s.open_orders_by_symbol order.symbol with
          | some lst => alistSet s.open_orders_by_symbol order.symbol
              (lst.filter (fun tid => tid ≠ token_id))
          | none => s.open_orders_by_symbol
        { s with
          orders := alistSet s.orders token_id order1
          balances := bs
          open_orders_by_symbol := oo }

/-- execute_on_best_touch from app/paper.py: snapshot the open-order id list
    for the symbol and process each id in insertion order. -/
def execute_on_best_touch (s : AppState) (symbol : String)
    (best_bid best_ask : Option ℚ) : AppState :=
  if best_bid = none ∧ best_ask = none then s
  else
    let order_ids := (alistGet s.open_orders_by_symbol symbol).getD []
    order_ids.foldl (exec_one best_bid best_ask) s

/-- Reserve asset of an order: the quote asset for a buy, the base asset
    otherwise (matching _reserve_for_order and _release_reserve). -/
def reserveAsset (o : Order) : String :=
  if o.side = "buy" then (split_symbol o.symbol).2 else (split_symbol o.symbol).1

/-- DELETE /orders/token_id endpoint from app/main.py lines 123-129: a failed
    cancel_order raises HTTPException 400 with the textual reason, success
    returns HTTP 200. Result is (state, HTTP status, detail). -/
def cancel_endpoint (s : AppState) (username token_id : String) : AppState × ℕ × String :=
  let r := cancel_order s username token_id
  if r.2.1 then (r.1, 200, "") else (r.1, 400, r.2.2)

theorem lookupBalance_release_total (bs : AList String (AList String Balance))
    (username side symbol : String) (reserved : ℚ) (u a : String) :
    (lookupBalance (release_reserve bs username side symbol reserved) u a).total
      = (lookupBalance bs u a).total := by
  unfold release_reserve
  by_cases hb : side = "buy" <;>
    · simp only [hb, if_true, if_false, lookupBalance_updBalance]
      split
      · rename_i h
        rw [← h.1, ← h.2]
      · rfl

theorem lookupBalance_release_available (bs : AList String (AList String Balance))
    (username side symbol : String) (reserved : ℚ) :
    (lookupBalance (release_reserve bs username side symbol reserved) username
        (if side = "buy" then (split_symbol symbol).2 else (split_symbol symbol).1)).available
      = (lookupBalance bs username
          (if side = "buy" then (split_symbol symbol).2
           else (split_symbol symbol).1)).available + reserved := by
  unfold release_reserve
  by_cases hb : side = "buy" <;> simp [hb, lookupBalance_updBalance]

theorem not_mem_index_removed (oo : AList String (List String)) (sym tid : String) :
    tid ∉ (alistGet
      (match alistGet oo sym with
       | some lst => alistSet oo sym (lst.filter (fun t => t ≠ tid))
       | none => oo) sym).getD [] := by
  cases hoo : alistGet oo sym with
  | none => simp [hoo]
  | some lst => simp [hoo, alistGet_set_self, List.mem_filter]

/-- C3. cancel_order succeeds exactly when the order exists, belongs to the
    caller and is open; on success the status becomes cancelled, every total is
    unchanged, exactly reserved_amount returns to the available of the reserve
    asset, and the token is removed from the open index; on failure the state
    is unchanged. -/
theorem cancel_order_spec (s : AppState) (username token_id : String) :
    ((cancel_order s username token_id).2.1 = true ↔
      ∃ o, alistGet s.orders token_id = some o ∧ o.username = username ∧
        o.status = "open") ∧
    ((cancel_order s username token_id).2.1 = false →
      (cancel_order s username token_id).1 = s) ∧
    (∀ o, alistGet s.orders token_id = some o → o.username = username →
      o.status = "open" →
      alistGet (cancel_order s username token_id).1.orders token_id
          = some { o with status := "cancelled" } ∧
      (∀ u a, (lookupBalance (cancel_order s username token_id).1.balances u a).total
          = (lookupBalance s.balances u a).total) ∧
      (lookupBalance (cancel_order s username token_id).1.balances username
          (reserveAsset o)).available
        = (lookupBalance s.balances username (reserveAsset o)).available
            + o.reserved_amount ∧
      token_id ∉
        (alistGet (cancel_order s username token_id).1.open_orders_by_symbol
          o.symbol).getD []) := by
  cases hget : alistGet s.orders token_id with
  | none =>
    refine ⟨?_, ?_, ?_⟩
    · simp [cancel_order, hget]
    · simp [cancel_order, hget]
    · intro o ho
      exact absurd ho (by simp)
  | some o0 =>
    by_cases hun : o0.username = username
    · by_cases hst : o0.status = "open"
      · have hrun : cancel_order s username token_id
            = (let order1 : Order := { o0 with status := "cancelled" }
               let bs := release_reserve s.balances username o0.side o0.symbol
                 o0.reserved_amount
               let oo := match alistGet s.open_orders_by_symbol o0.symbol with
                 | some lst => alistSet s.open_orders_by_symbol o0.symbol
                     (lst.filter (fun tid => tid ≠ token_id))
                 | none => s.open_orders_by_symbol
               ({ s with
                  orders := alistSet s.orders token_id order1
                  balances := bs
                  open_orders_by_symbol := oo }, true, "")) := by
          simp [cancel_order, hget, hun, hst]
        refine ⟨?_, ?_, ?_⟩
        · constructor
          · intro _
            exact ⟨o0, rfl, hun, hst⟩
          · intro _
            rw [hrun]
        · intro h
          rw [hrun] at h
          simp at h
        · intro o ho hou hos
          have ho0 : o0 = o := by injection ho
          subst ho0
          refine ⟨?_, ?_, ?_, ?_⟩
          · simp [hrun, alistGet_set_self]
          · intro u a
            rw [hrun]
            exact lookupBalance_release_total s.balances username o0.side o0.symbol
              o0.reserved_amount u a
          · rw [hrun]
            unfold reserveAsset
            exact lookupBalance_release_available s.balances username o0.side
              o0.symbol o0.reserved_amount
          · rw [hrun]
            exact not_mem_index_removed s.open_orders_by_symbol o0.symbol token_id
      · refine ⟨?_, ?_, ?_⟩
        · constructor
          · intro h
            exfalso
            simp [cancel_order, hget, hun, hst] at h
          · rintro ⟨o, ho, hou, hos⟩
            have : o0 = o := by injection ho
            subst this
            exact absurd hos hst
        · intro _
          simp [cancel_order, hget, hun, hst]
        · intro o ho hou hos
          have : o0 = o := by injection ho
          subst this
          exact absurd hos hst
    · refine ⟨?_, ?_, ?_⟩
      · constructor
        · intro h
          exfalso
          simp [cancel_order, hget, hun] at h
        · rintro ⟨o, ho, hou, hos⟩
          have : o0 = o := by injection ho
          subst this
          exact absurd hou hun
      · intro _
        simp [cancel_order, hget, hun]
      · intro o ho hou hos
        have : o0 = o := by injection ho
        subst this
        exact absurd hou hun

/-- Sample open buy order used by witnesses. -/
def oW : Order :=
  { token_id := "t1", username := "alice", symbol := "BTCUSDT", side := "buy",
    price := 10, quantity := 2, status := "open", filled_price := none,
    reason := none, reserved_amount := 20, created_at := 0 }

/-- Sample state holding the open order oW with a funded USDT balance. -/
def sW : AppState :=
  { users := [("alice", { username := "alice", password_hash := "h" })]
    balances := [("alice", [("USDT", { total := 100, available := 80 })])]
    orders := [("t1", oW)]
    open_orders_by_symbol := [("BTCUSDT", ["t1"])] }

theorem cancel_order_spec_witness :
    (cancel_order sW "alice" "t1").2.1 = true ∧
    alistGet (cancel_order sW "alice" "t1").1.orders "t1"
      = some { oW with status := "cancelled" } ∧
    (lookupBalance (cancel_order sW "alice" "t1").1.balances "alice" "USDT").available
      = 100 := by
  have h := cancel_order_spec sW "alice" "t1"
  have h3 := h.2.2 oW (by decide) (by decide) (by decide)
  refine ⟨h.1.mpr ⟨oW, by decide, by decide, by decide⟩, h3.1, ?_⟩
  have h4 := h3.2.2.1
  have hra : reserveAsset oW = "USDT" := by decide
  rw [hra] at h4
  rw [h4]
  have h5 : (lookupBalance sW.balances "alice" "USDT").available = 80 := rfl
  have h6 : oW.reserved_amount = 20 := rfl
  rw [h5, h6]
  norm_num

/-- C2. Per-order effect of execute_on_best_touch on an open buy order whose
    limit is touched by the present best ask (exec_one is the loop body of
    execute_on_best_touch): status becomes filled at the best ask, the quote
    total drops by best_ask times qty, base total and available grow by qty,
    any positive excess reservation returns to the quote available, and the
    token leaves the open index. -/
theorem exec_one_buy_fill (s : AppState) (token_id : String) (o : Order)
    (bb : Option ℚ) (ba : ℚ)
    (hget : alistGet s.orders token_id = some o)
    (hopen : o.status = "open") (hbuy : o.side = "buy") (hcross : ba ≤ o.price)
    (hdistinct : (split_symbol o.symbol).1 ≠ (split_symbol o.symbol).2) :
    alistGet (exec_one bb (some ba) s token_id).orders token_id
        = some { o with status := "filled", filled_price := some ba } ∧
    (lookupBalance (exec_one bb (some ba) s token_id).balances o.username
        (split_symbol o.symbol).2).total
      = (lookupBalance s.balances o.username (split_symbol o.symbol).2).total
          - ba * o.quantity ∧
    (lookupBalance (exec_one bb (some ba) s token_id).balances o.username
        (split_symbol o.symbol).1).total
      = (lookupBalance s.balances o.username (split_symbol o.symbol).1).total
          + o.quantity ∧
    (lookupBalance (exec_one bb (some ba) s token_id).balances o.username
        (split_symbol o.symbol).1).available
      = (lookupBalance s.balances o.username (split_symbol o.symbol).1).available
          + o.quantity ∧
    (lookupBalance (exec_one bb (some ba) s token_id).balances o.username
        (split_symbol o.symbol).2).available
      = (lookupBalance s.balances o.username (split_symbol o.symbol).2).available
          + (if o.reserved_amount > ba * o.quantity
             then o.reserved_amount - ba * o.quantity else 0) ∧
    token_id ∉ (alistGet (exec_one bb (some ba) s token_id).open_orders_by_symbol
        o.symbol).getD [] := by
  have hfp : fill_price_for o bb (some ba) = some ba := by
    simp [fill_price_for, hbuy, hcross]
  have hrun : exec_one bb (some ba) s token_id
      = { s with
          orders := alistSet s.orders token_id
            { o with status := "filled", filled_price := some ba }
          balances := apply_fill s.balances o.username o.side o.symbol ba
            o.quantity o.reserved_amount
          open_orders_by_symbol :=
            match alistGet s.open_orders_by_symbol o.symbol with
            | some lst => alistSet s.open_orders_by_symbol o.symbol
                (lst.filter (fun tid => tid ≠ token_id))
            | none => s.open_orders_by_symbol } := by
    simp [exec_one, hget, hopen, hfp]
  have hq : ¬((split_symbol o.symbol).1 = (split_symbol o.symbol).2) := hdistinct
  have hq2 : ¬((split_symbol o.symbol).2 = (split_symbol o.symbol).1) :=
    fun h => hdistinct h.symm
  refine ⟨?_, ?_, ?_, ?_, ?_, ?_⟩
  · simp [hrun, alistGet_set_self]
  · rw [hrun]
    unfold apply_fill
    by_cases hr : o.reserved_amount > ba * o.quantity <;>
      simp [hbuy, hr, lookupBalance_updBalance, hq, hq2]
  · rw [hrun]
    unfold apply_fill
    by_cases hr : o.reserved_amount > ba * o.quantity <;>
      simp [hbuy, hr, lookupBalance_updBalance, hq, hq2]
  · rw [hrun]
    unfold apply_fill
    by_cases hr : o.reserved_amount > ba * o.quantity <;>
      simp [hbuy, hr, lookupBalance_updBalance, hq, hq2]
  · rw [hrun]
    unfold apply_fill
    by_cases hr : o.reserved_amount > ba * o.quantity <;>
      simp [hbuy, hr, lookupBalance_updBalance, hq, hq2]
  · rw [hrun]
    exact not_mem_index_removed s.open_orders_by_symbol o.symbol token_id

theorem exec_one_buy_fill_witness :
    alistGet (exec_one none (some 9) sW "t1").orders "t1"
      = some { oW with status := "filled", filled_price := some 9 } ∧
    "t1" ∉ (alistGet (exec_one none (some 9) sW "t1").open_orders_by_symbol
        "BTCUSDT").getD [] := by
  have h := exec_one_buy_fill sW "t1" oW none 9 (by decide) (by decide)
    (by decide) (by norm_num [oW]) (by decide)
  exact ⟨h.1, h.2.2.2.2.2⟩

/-- C7 counterexample: a DELETE of a token_id absent from the order store
    returns HTTP 400 (cancel_order fails and main.py raises 400), not 404. -/
theorem cancel_endpoint_unknown_counterexample :
    alistGet (AppState.orders {}) "missing" = none ∧
    (cancel_endpoint {} "alice" "missing").2.1 = 400 ∧
    ¬(cancel_endpoint {} "alice" "missing").2.1 = 404 := by
  refine ⟨rfl, rfl, by decide⟩

/-- C7 amended. A DELETE for an unknown token_id yields HTTP 400 with detail
    "order not found" (404 is used only by GET /orders/token_id). -/
theorem cancel_endpoint_unknown (s : AppState) (username token_id : String)
    (h : alistGet s.orders token_id = none) :
    cancel_endpoint s username token_id = (s, 400, "order not found") := by
  simp [cancel_endpoint, cancel_order, h]

theorem cancel_endpoint_unknown_witness :
    cancel_endpoint {} "alice" "nope" = ({}, 400, "order not found") :=
  cancel_endpoint_unknown {} "alice" "nope" rfl

/-- Candle accumulator from app/market.py; the source fields end, open and
    close are Lean keywords and are rendered endT, openQ, closeQ. -/
structure Candle where
  start : ℚ
  endT : ℚ
  openQ : ℚ
  high : ℚ
  low : ℚ
  closeQ : ℚ
  volume : ℚ
deriving DecidableEq, Repr

/-- Python float modulo (for a positive divisor, as used with candle
    intervals). -/
def pymod (x y : ℚ) : ℚ := x - y * ⌊x / y⌋

/-- interval_start from app/market.py: ts - (ts mod interval). -/
def interval_start (ts : ℚ) (interval : ℕ) : ℚ := ts - pymod ts interval

/-- Per-key body of _update_kline (app/market.py lines 78-89): open a fresh
    candle when none is active or ts passed its end, else widen it. -/
def update_kline_one (candle? : Option Candle) (price qty ts : ℚ) (interval : ℕ) :
    Candle :=
  let start := interval_start ts interval
  let stop := start + interval
  let fresh : Candle :=
    { start := start, endT := stop, openQ := price, high := price, low := price,
      closeQ := price, volume := qty }
  match candle? with
  | none => fresh
  | some c =>
    if ts ≥ c.endT then fresh
    else
      { c with
        high := max c.high price
        low := min c.low price
        closeQ := price
        volume := c.volume + qty }

/-- Per-key body of kline_tick_loop (app/market.py lines 100-112): once the
    current candle's end has elapsed, roll it forward seeded with its close. -/
def roll_candle (c : Candle) (interval : ℕ) (now : ℚ) : Candle :=
  if now ≥ c.endT then
    { start := c.endT
      endT := c.endT + interval
      openQ := c.closeQ
      high := c.closeQ
      low := c.closeQ
      closeQ := c.closeQ
      volume := 0 }
  else c

/-- Candle well-formedness from the spec: aligned start, exact width, OHLC
    ordering and nonnegative volume. -/
def candleInv (c : Candle) (interval : ℕ) : Prop :=
  pymod c.start interval = 0 ∧ c.endT - c.start = interval ∧
  c.low ≤ c.openQ ∧ c.openQ ≤ c.high ∧ c.low ≤ c.closeQ ∧ c.closeQ ≤ c.high ∧
  0 ≤ c.volume

theorem pymod_interval_start (ts : ℚ) (n : ℕ) (hn : 0 < n) :
    pymod (interval_start ts n) n = 0 := by
  have hn0 : (n : ℚ) ≠ 0 := by positivity
  have h1 : interval_start ts n = n * ⌊ts / n⌋ := by
    unfold interval_start pymod
    ring
  rw [h1]
  unfold pymod
  rw [mul_comm (n : ℚ) (⌊ts / n⌋ : ℚ), mul_div_assoc, div_self hn0, mul_one,
    Int.floor_intCast]
  ring

theorem pymod_add_nat (x : ℚ) (n : ℕ) (hn : 0 < n) : pymod (x + n) n = pymod x n := by
  have hn0 : (n : ℚ) ≠ 0 := by positivity
  unfold pymod
  have h1 : (x + n) / n = x / n + 1 := by
    field_simp
  rw [h1]
  have h2 : ⌊x / (n : ℚ) + 1⌋ = ⌊x / (n : ℚ)⌋ + 1 := by
    exact_mod_cast Int.floor_add_int (x / (n : ℚ)) 1
  rw [h2]
  push_cast
  ring

/-- C8. The candle invariant (aligned start, exact width, OHLC ordering,
    nonnegative volume) is preserved by the trade update for an existing key,
    established by the trade update for a fresh key, and preserved by the
    tick-loop roll, for positive intervals and nonnegative trade quantity. -/
theorem candle_invariants (interval : ℕ) (hI : 0 < interval)
    (price qty ts now : ℚ) (hq : 0 ≤ qty) (c : Candle)
    (hc : candleInv c interval) :
    candleInv (update_kline_one (some c) price qty ts interval) interval ∧
    candleInv (update_kline_one none price qty ts interval) interval ∧
    candleInv (roll_candle c interval now) interval := by
  obtain ⟨hstart, hwidth, hlo, hoh, hlc, hch, hv⟩ := hc
  have hfresh : candleInv (update_kline_one none price qty ts interval) interval := by
    simp only [update_kline_one]
    exact ⟨pymod_interval_start ts interval hI, by ring, le_refl _, le_refl _,
      le_refl _, le_refl _, hq⟩
  refine ⟨?_, hfresh, ?_⟩
  · simp only [update_kline_one]
    by_cases hts : ts ≥ c.endT
    · simp only [hts, if_true]
      simpa only [update_kline_one] using hfresh
    · simp only [hts, if_false]
      refine ⟨hstart, hwidth, ?_, ?_, ?_, ?_, ?_⟩
      · show min c.low price ≤ c.openQ
        exact le_trans (min_le_left _ _) hlo
      · show c.openQ ≤ max c.high price
        exact le_trans hoh (le_max_left _ _)
      · show min c.low price ≤ price
        exact min_le_right _ _
      · show price ≤ max c.high price
        exact le_max_right _ _
      · show (0 : ℚ) ≤ c.volume + qty
        linarith
  · unfold roll_candle
    by_cases hnow : now ≥ c.endT
    · simp only [hnow, if_true]
      refine ⟨?_, by ring, le_refl _, le_refl _, le_refl _, le_refl _, le_refl _⟩
      have hend : c.endT = c.start + interval := by linarith
      rw [hend, pymod_add_nat c.start interval hI]
      exact hstart
    · simp only [hnow, if_false]
      exact ⟨hstart, hwidth, hlo, hoh, hlc, hch, hv⟩

/-- Sample well-formed 10-second candle used by the witness. -/
def cW : Candle :=
  { start := 20, endT := 30, openQ := 5, high := 7, low := 4, closeQ := 6,
    volume := 3 }

theorem candle_invariants_witness :
    candleInv cW 10 ∧ candleInv (update_kline_one (some cW) 8 2 25 10) 10 := by
  have hpm : pymod (20 : ℚ) 10 = 0 := by
    have h1 : ((20 : ℚ) / 10) = ((2 : ℤ) : ℚ) := by norm_num
    unfold pymod
    rw [h1, Int.floor_intCast]
    norm_num
  have hc : candleInv cW 10 := by
    refine ⟨hpm, by norm_num [cW], by norm_num [cW], by norm_num [cW],
      by norm_num [cW], by norm_num [cW], by norm_num [cW]⟩
  exact ⟨hc, (candle_invariants 10 (by norm_num) 8 2 25 0 (by norm_num) cW hc).1⟩

/-- Persisted JSON document shape from app/storage.py: users map to their
    password_hash, balances and orders keep all fields, the open index is
    stored as-is. -/
structure StateFile where
  users : AList String String
  balances : AList String (AList String Balance)
  orders : AList String Order
  open_orders_by_symbol : AList String (List String)
deriving DecidableEq, Repr

/-- Entry written for one user by save_state (only the password_hash). -/
def saveUser (p : String × User) : String × String := (p.1, p.2.password_hash)

/-- Entry rebuilt for one user by load_state (username taken from the key). -/
def loadUser (p : String × String) : String × User :=
  (p.1, { username := p.1, password_hash := p.2 })

/-- Field-by-field copy of a balance as written and reloaded by storage. -/
def copyBalance (b : Balance) : Balance :=
  { total := b.total, available := b.available }

/-- Field-by-field copy of an order as written by save_state and rebuilt by
    load_state (all eleven fields). -/
def copyOrder (o : Order) : Order :=
  { token_id := o.token_id, username := o.username, symbol := o.symbol,
    side := o.side, price := o.price, quantity := o.quantity, status := o.status,
    filled_price := o.filled_price, reason := o.reason,
    reserved_amount := o.reserved_amount, created_at := o.created_at }

/-- Balance dictionary entry as serialized and deserialized. -/
def balanceEntry (q : String × Balance) : String × Balance := (q.1, copyBalance q.2)

/-- Order dictionary entry as serialized and deserialized. -/
def orderEntry (p : String × Order) : String × Order := (p.1, copyOrder p.2)

/-- save_state from app/storage.py (the data dictionary written to disk). -/
def save_state (s : AppState) : StateFile :=
  { users := s.users.map saveUser
    balances := s.balances.map (fun p => (p.1, p.2.map balanceEntry))
    orders := s.orders.map orderEntry
    open_orders_by_symbol := s.open_orders_by_symbol }

/-- load_state from app/storage.py: rebuild User from the key and hash,
    Balance and Order from their stored fields. -/
def load_state (f : StateFile) : AppState :=
  { users := f.users.map loadUser
    balances := f.balances.map (fun p => (p.1, p.2.map balanceEntry))
    orders := f.orders.map orderEntry
    open_orders_by_symbol := f.open_orders_by_symbol }

theorem map_balanceEntry_id (ub : AList String Balance) : ub.map balanceEntry = ub := by
  induction ub with
  | nil => rfl
  | cons q rest ih =>
    rw [List.map_cons, ih]
    exact rfl

theorem map_orderEntry_id (os : AList String Order) : os.map orderEntry = os := by
  induction os with
  | nil => rfl
  | cons p rest ih =>
    rw [List.map_cons, ih]
    exact rfl

theorem map_balances_roundtrip (bs : AList String (AList String Balance)) :
    (bs.map (fun p => (p.1, p.2.map balanceEntry))).map
      (fun p => (p.1, p.2.map balanceEntry)) = bs := by
  induction bs with
  | nil => rfl
  | cons p rest ih =>
    simp only [List.map_cons]
    rw [ih, map_balanceEntry_id, map_balanceEntry_id]

theorem map_orders_roundtrip (os : AList String Order) :
    (os.map orderEntry).map orderEntry = os := by
  rw [List.map_map, show orderEntry ∘ orderEntry = orderEntry from rfl,
    map_orderEntry_id]

theorem map_user_roundtrip (us : AList String User)
    (hU : ∀ p ∈ us, p.2.username = p.1) : (us.map saveUser).map loadUser = us := by
  induction us with
  | nil => rfl
  | cons p rest ih =>
    have h1 : p.2.username = p.1 := hU p (List.mem_cons_self p rest)
    have h2 : loadUser (saveUser p) = p := by
      rcases p with ⟨k, un, ph⟩
      simp only [loadUser, saveUser]
      have hk : un = k := h1
      rw [hk]
    rw [List.map_cons, List.map_cons, h2,
      ih (fun q hq => hU q (List.mem_cons_of_mem p hq))]

/-- State whose user record does not carry the username it is keyed under. -/
def sMismatch : AppState :=
  { users := [("alice", { username := "bob", password_hash := "h" })]
    balances := []
    orders := []
    open_orders_by_symbol := [] }

/-- C9 counterexample: save then load does not reproduce a state whose user
    record carries a username different from its key (load_state rebuilds the
    username from the key while save_state drops the field). -/
theorem save_load_counterexample : load_state (save_state sMismatch) ≠ sMismatch := by
  decide

/-- C9 amended. For every state whose user records carry the username they are
    keyed under (true of every state the application builds), save_state
    followed by load_state reproduces the users, balances, orders and
    open-order index exactly. -/
theorem save_load_roundtrip (s : AppState)
    (hU : ∀ p ∈ s.users, p.2.username = p.1) : load_state (save_state s) = s := by
  cases s with
  | mk us bs os oo =>
    simp only [save_state, load_state, AppState.mk.injEq]
    exact ⟨map_user_roundtrip us hU, map_balances_roundtrip bs,
      map_orders_roundtrip os, trivial⟩

theorem save_load_roundtrip_witness : load_state (save_state sW) = sW :=
  save_load_roundtrip sW (by decide)

/-- Subscription dataclass from app/ws_server.py. -/
structure Subscription where
  stream : String
  symbol : String
  exchange : String := "all"
  interval : Option String := none
  half_life : Option ℚ := none
deriving DecidableEq, Repr

/-- EwmaState dataclass from app/ws_server.py. -/
structure EwmaState where
  value : Option ℚ := none
  last_ts : Option ℚ := none
deriving DecidableEq, Repr

/-- EwmaEvent payload from app/models.py, as sent to the client. -/
structure EwmaFrame where
  symbol : String
  exchange : String
  half_life : ℚ
  value : ℚ
  timestamp : ℚ
deriving DecidableEq, Repr

/-- New EWMA value computed by WSHub.update_ewma_on_trade lines 114-121: first
    observation takes the price, later ones blend by alpha derived from the
    elapsed time. The transcendental math.exp and the constant ln 2 are
    parameters expf and ln2 of the embedding. A stored last_ts of 0 is falsy in
    Python and is replaced by ts, as in the source's (state.last_ts or ts). -/
def ewmaNext (expf : ℚ → ℚ) (ln2 hl price ts : ℚ) (st : EwmaState) : ℚ :=
  match st.value with
  | none => price
  | some v =>
    let lt := match st.last_ts with
      | some l => if l = 0 then ts else l
      | none => ts
    let dt := max 0 (ts - lt)
    let alpha := if 0 < hl then 1 - expf (-(ln2) * dt / hl) else 1
    (1 - alpha) * v + alpha * price

/-- Per-subscription body of WSHub.update_ewma_on_trade (app/ws_server.py lines
    103-129) threading the EWMA state table and the frames sent so far. The
    guard on sub.half_life is Python falsy: None and 0 are inert, any other
    value passes. -/
def ewma_step (expf : ℚ → ℚ) (ln2 : ℚ) (symbol exchange : String) (price ts : ℚ)
    (acc : AList (String × String × ℚ) EwmaState × List EwmaFrame)
    (sub : Subscription) : AList (String × String × ℚ) EwmaState × List EwmaFrame :=
  if sub.stream ≠ "ewma" then acc
  else if sub.symbol ≠ symbol then acc
  else if sub.exchange ≠ "all" ∧ sub.exchange ≠ exchange then acc
  else
    match sub.half_life with
    | none => acc
    | some hl =>
      if hl = 0 then acc
      else
        let key := (symbol, sub.exchange, hl)
        let st := (alistGet acc.1 key).getD {}
        let v1 := ewmaNext expf ln2 hl price ts st
        let st1 : EwmaState := { value := some v1, last_ts := some ts }
        let frame : EwmaFrame :=
          { symbol := symbol, exchange := sub.exchange, half_life := hl, value := v1,
            timestamp := ts }
        (alistSet acc.1 key st1, acc.2 ++ [frame])

/-- WSHub.update_ewma_on_trade restricted to one connection: fold the step over
    the connection's subscription list. -/
def update_ewma_on_trade (expf : ℚ → ℚ) (ln2 : ℚ) (subs : List Subscription)
    (est : AList (String × String × ℚ) EwmaState) (symbol exchange : String)
    (price ts : ℚ) : AList (String × String × ℚ) EwmaState × List EwmaFrame :=
  subs.foldl (ewma_step expf ln2 symbol exchange price ts) (est, [])

/-- EWMA part of handle_trade (app/market.py lines 70-71): update once for the
    trade's venue, then once for the aggregate venue "all". -/
def handle_trade_ewma (expf : ℚ → ℚ) (ln2 : ℚ) (subs : List Subscription)
    (est : AList (String × String × ℚ) EwmaState) (symbol exchange : String)
    (price ts : ℚ) : AList (String × String × ℚ) EwmaState × List EwmaFrame :=
  let r1 := update_ewma_on_trade expf ln2 subs est symbol exchange price ts
  let r2 := update_ewma_on_trade expf ln2 subs r1.1 symbol "all" price ts
  (r2.1, r1.2 ++ r2.2)

/-- Ewma subscription with half_life -1, used to refute the claim that any
    half_life below or equal to zero is inert. -/
def subNeg : Subscription :=
  { stream := "ewma", symbol := "BTCUSDT", exchange := "all", interval := none,
    half_life := some (-1) }

/-- C6 counterexample: a subscription with negative half_life is not inert —
    the guard (if not sub.half_life) only filters None and 0, so a trade
    creates EWMA state for it and sends it a frame. -/
theorem ewma_negative_half_life_counterexample :
    subNeg.half_life = some (-1) ∧
    (update_ewma_on_trade (fun _ => 1) 1 [subNeg] [] "BTCUSDT" "binance"
      100 1000).2 ≠ [] ∧
    (update_ewma_on_trade (fun _ => 1) 1 [subNeg] [] "BTCUSDT" "binance"
      100 1000).1 ≠ [] := by
  refine ⟨rfl, ?_, ?_⟩ <;> decide

theorem ewma_step_falsy (expf : ℚ → ℚ) (ln2 : ℚ) (symbol exchange : String)
    (price ts : ℚ) (acc : AList (String × String × ℚ) EwmaState × List EwmaFrame)
    (sub : Subscription)
    (h : sub.stream = "ewma" → sub.half_life = none ∨ sub.half_life = some 0) :
    ewma_step expf ln2 symbol exchange price ts acc sub = acc := by
  unfold ewma_step
  by_cases h1 : sub.stream = "ewma"
  · rcases h h1 with hn | h0
    · simp [hn]
    · simp [h0]
  · simp [h1]

/-- C6 amended. A connection all of whose ewma subscriptions have half_life
    absent or exactly 0 receives no ewma frame and its EWMA state table is
    unchanged by any trade; a negative half_life, by contrast, is live (see the
    counterexample). -/
theorem update_ewma_falsy (expf : ℚ → ℚ) (ln2 : ℚ) (subs : List Subscription)
    (est : AList (String × String × ℚ) EwmaState) (symbol exchange : String)
    (price ts : ℚ)
    (h : ∀ sub ∈ subs, sub.stream = "ewma" →
      sub.half_life = none ∨ sub.half_life = some 0) :
    update_ewma_on_trade expf ln2 subs est symbol exchange price ts = (est, []) := by
  unfold update_ewma_on_trade
  induction subs with
  | nil => rfl
  | cons sub rest ih =>
    rw [List.foldl_cons,
      ewma_step_falsy expf ln2 symbol exchange price ts (est, []) sub
        (h sub (List.mem_cons_self sub rest))]
    exact ih (fun q hq => h q (List.mem_cons_of_mem sub hq))

/-- Inert ewma subscription (half_life absent) used by the witness. -/
def subNoHl : Subscription :=
  { stream := "ewma", symbol := "BTCUSDT", exchange := "all", interval := none,
    half_life := none }

theorem update_ewma_falsy_witness :
    update_ewma_on_trade (fun _ => 1) 1 [subNoHl] [] "BTCUSDT" "binance" 100 1000
      = ([], []) :=
  update_ewma_falsy (fun _ => 1) 1 [subNoHl] [] "BTCUSDT" "binance" 100 1000
    (by decide)

/-- EWMA state written after a processed trade (value and last_ts both set). -/
def ewmaNewState (v ts : ℚ) : EwmaState := { value := some v, last_ts := some ts }

/-- Frame payload sent for one processed ewma subscription. -/
def mkEwmaFrame (symbol exchange : String) (hl v ts : ℚ) : EwmaFrame :=
  { symbol := symbol, exchange := exchange, half_life := hl, value := v,
    timestamp := ts }

theorem ewmaNext_repeat (expf : ℚ → ℚ) (ln2 hl price ts v : ℚ)
    (hhl : 0 < hl) (hexp : expf 0 = 1) :
    ewmaNext expf ln2 hl price ts (ewmaNewState v ts) = v := by
  show ewmaNext expf ln2 hl price ts { value := some v, last_ts := some ts } = v
  simp only [ewmaNext, ite_self, sub_self, max_self, mul_zero, zero_div, hexp, hhl,
    if_true]
  norm_num

theorem update_ewma_single (expf : ℚ → ℚ) (ln2 : ℚ)
    (est : AList (String × String × ℚ) EwmaState) (symbol exchange : String)
    (price ts hl : ℚ) (sub : Subscription)
    (hs : sub.stream = "ewma") (hsym : sub.symbol = symbol)
    (hex : sub.exchange = "all" ∨ sub.exchange = exchange)
    (hhl : sub.half_life = some hl) (h0 : ¬hl = 0) :
    update_ewma_on_trade expf ln2 [sub] est symbol exchange price ts
      = (alistSet est (symbol, sub.exchange, hl)
           (ewmaNewState (ewmaNext expf ln2 hl price ts
             ((alistGet est (symbol, sub.exchange, hl)).getD {})) ts),
         [mkEwmaFrame symbol sub.exchange hl
           (ewmaNext expf ln2 hl price ts
             ((alistGet est (symbol, sub.exchange, hl)).getD {})) ts]) := by
  unfold update_ewma_on_trade
  simp only [List.foldl_cons, List.foldl_nil]
  unfold ewma_step
  rcases hex with hex | hex
  · simp [hs, hsym, hex, hhl, h0, ewmaNewState, mkEwmaFrame]
  · by_cases hall : sub.exchange = "all"
    · simp [hs, hsym, hall, hhl, h0, ewmaNewState, mkEwmaFrame]
    · simp [hs, hsym, hall, hex, hhl, h0, ewmaNewState, mkEwmaFrame]

theorem update_ewma_skip (expf : ℚ → ℚ) (ln2 : ℚ)
    (est : AList (String × String × ℚ) EwmaState) (symbol exchange : String)
    (price ts : ℚ) (sub : Subscription)
    (h1 : sub.exchange ≠ "all") (h2 : sub.exchange ≠ exchange) :
    update_ewma_on_trade expf ln2 [sub] est symbol exchange price ts = (est, []) := by
  unfold update_ewma_on_trade
  simp only [List.foldl_cons, List.foldl_nil]
  unfold ewma_step
  simp [h1, h2]

/-- Subscription to the ewma stream with venue filter "all". -/
def subAllW (symbol : String) (hl : ℚ) : Subscription :=
  { stream := "ewma", symbol := symbol, exchange := "all", interval := none,
    half_life := some hl }

/-- Subscription to the ewma stream filtered to one venue. -/
def subVenueW (symbol venue : String) (hl : ℚ) : Subscription :=
  { stream := "ewma", symbol := symbol, exchange := venue, interval := none,
    half_life := some hl }

theorem update_ewma_subAll (expf : ℚ → ℚ) (ln2 : ℚ)
    (est : AList (String × String × ℚ) EwmaState) (symbol exchange : String)
    (price ts hl : ℚ) (h0 : ¬hl = 0) :
    update_ewma_on_trade expf ln2 [subAllW symbol hl] est symbol exchange price ts
      = (alistSet est (symbol, "all", hl)
           (ewmaNewState (ewmaNext expf ln2 hl price ts
             ((alistGet est (symbol, "all", hl)).getD {})) ts),
         [mkEwmaFrame symbol "all" hl
           (ewmaNext expf ln2 hl price ts
             ((alistGet est (symbol, "all", hl)).getD {})) ts]) := by
  have h := update_ewma_single expf ln2 est symbol exchange price ts hl
    (subAllW symbol hl) rfl rfl (Or.inl rfl) rfl h0
  simpa [subAllW] using h

theorem update_ewma_subVenue_hit (expf : ℚ → ℚ) (ln2 : ℚ)
    (est : AList (String × String × ℚ) EwmaState) (symbol venue : String)
    (price ts hl : ℚ) (h0 : ¬hl = 0) :
    update_ewma_on_trade expf ln2 [subVenueW symbol venue hl] est symbol venue
        price ts
      = (alistSet est (symbol, venue, hl)
           (ewmaNewState (ewmaNext expf ln2 hl price ts
             ((alistGet est (symbol, venue, hl)).getD {})) ts),
         [mkEwmaFrame symbol venue hl
           (ewmaNext expf ln2 hl price ts
             ((alistGet est (symbol, venue, hl)).getD {})) ts]) := by
  have h := update_ewma_single expf ln2 est symbol venue price ts hl
    (subVenueW symbol venue hl) rfl rfl (Or.inr rfl) rfl h0
  simpa [subVenueW] using h

theorem update_ewma_subVenue_skip (expf : ℚ → ℚ) (ln2 : ℚ)
    (est : AList (String × String × ℚ) EwmaState) (symbol venue : String)
    (price ts hl : ℚ) (hv : venue ≠ "all") :
    update_ewma_on_trade expf ln2 [subVenueW symbol venue hl] est symbol "all"
      price ts = (est, []) :=
  update_ewma_skip expf ln2 est symbol "all" price ts (subVenueW symbol venue hl)
    hv hv

/-- C10. handle_trade updates the EWMA hub once for the trade's venue and once
    for the aggregate venue "all", so per trade a live subscription with venue
    filter "all" receives exactly two frames whose value and timestamp
    coincide (the second update sees dt = 0), while a subscription filtered to
    the trade's venue receives exactly one frame. -/
theorem handle_trade_ewma_counts (expf : ℚ → ℚ) (ln2 : ℚ)
    (est : AList (String × String × ℚ) EwmaState) (symbol venue : String)
    (price ts hl : ℚ) (hhl : 0 < hl) (hexp : expf 0 = 1) (hv : venue ≠ "all") :
    ((handle_trade_ewma expf ln2 [subAllW symbol hl] est symbol venue
        price ts).2.map (fun f => f.value)
      = [ewmaNext expf ln2 hl price ts ((alistGet est (symbol, "all", hl)).getD {}),
         ewmaNext expf ln2 hl price ts
           ((alistGet est (symbol, "all", hl)).getD {})]) ∧
    ((handle_trade_ewma expf ln2 [subAllW symbol hl] est symbol venue
        price ts).2.map (fun f => f.timestamp) = [ts, ts]) ∧
    (handle_trade_ewma expf ln2 [subVenueW symbol venue hl] est symbol venue
        price ts).2.length = 1 := by
  have h0 : ¬hl = 0 := ne_of_gt hhl
  have e1 := update_ewma_subAll expf ln2 est symbol venue price ts hl h0
  have e2 := update_ewma_subAll expf ln2
    (alistSet est (symbol, "all", hl)
      (ewmaNewState (ewmaNext expf ln2 hl price ts
        ((alistGet est (symbol, "all", hl)).getD {})) ts))
    symbol "all" price ts hl h0
  rw [alistGet_set_self, Option.getD_some,
    ewmaNext_repeat expf ln2 hl price ts _ hhl hexp] at e2
  have e3 := update_ewma_subVenue_hit expf ln2 est symbol venue price ts hl h0
  have e4 := update_ewma_subVenue_skip expf ln2
    (alistSet est (symbol, venue, hl)
      (ewmaNewState (ewmaNext expf ln2 hl price ts
        ((alistGet est (symbol, venue, hl)).getD {})) ts))
    symbol venue price ts hl hv
  refine ⟨?_, ?_, ?_⟩
  · simp [handle_trade_ewma, e1, e2, mkEwmaFrame]
  · simp [handle_trade_ewma, e1, e2, mkEwmaFrame]
  · simp [handle_trade_ewma, e3, e4]

theorem handle_trade_ewma_counts_witness :
    (handle_trade_ewma (fun _ => 1) 1 [subAllW "BTCUSDT" 10] [] "BTCUSDT"
        "binance" 100 1000).2.map (fun f => f.value) = [100, 100] ∧
    (handle_trade_ewma (fun _ => 1) 1 [subVenueW "BTCUSDT" "binance" 10] []
        "BTCUSDT" "binance" 100 1000).2.length = 1 := by
  have h := handle_trade_ewma_counts (fun _ => 1) 1 [] "BTCUSDT" "binance"
    100 1000 10 (by norm_num) rfl (by decide)
  refine ⟨?_, h.2.2⟩
  rw [h.1]
  rfl

/-- MarketState dataclass from app/state.py: per (symbol, venue) best-touch
    snapshot. -/
structure MarketState where
  best_bid : Option ℚ := none
  best_ask : Option ℚ := none
  exchange : String := ""
  timestamp : ℚ := 0
deriving DecidableEq, Repr

/-- Bid half of the synthetic-best fold body in handle_best_touch
    (app/market.py lines 51-53): replace only on a strictly greater bid. -/
def bid_step (acc : Option ℚ × Option String) (p : String × MarketState) :
    Option ℚ × Option String :=
  match p.2.best_bid with
  | some b =>
    match acc.1 with
    | none => (some b, some p.1)
    | some cur => if cur < b then (some b, some p.1) else acc
  | none => acc

/-- Ask half of the synthetic-best fold body (lines 54-56): replace only on a
    strictly smaller ask. -/
def ask_step (acc : Option ℚ × Option String) (p : String × MarketState) :
    Option ℚ × Option String :=
  match p.2.best_ask with
  | some a =>
    match acc.1 with
    | none => (some a, some p.1)
    | some cur => if a < cur then (some a, some p.1) else acc
  | none => acc

/-- Loop body of the synthetic-best recomputation (lines 50-56). -/
def synth_step (acc : (Option ℚ × Option String) × (Option ℚ × Option String))
    (p : String × MarketState) :
    (Option ℚ × Option String) × (Option ℚ × Option String) :=
  (bid_step acc.1 p, ask_step acc.2 p)

/-- Fold of app/market.py lines 46-56 over the per-symbol venue map. -/
def synthFold (l : AList String MarketState) :
    (Option ℚ × Option String) × (Option ℚ × Option String) :=
  l.foldl synth_step ((none, none), (none, none))

/-- handle_best_touch from app/market.py lines 40-56: overwrite the venue's
    quote for the symbol and recompute the synthetic best, returning the
    updated map and the (bid, bid venue, ask, ask venue) quadruple. -/
def handle_best_touch (bt : AList String (AList String MarketState))
    (exchange symbol : String) (bid ask ts : ℚ) :
    AList String (AList String MarketState) ×
      ((Option ℚ × Option String) × (Option ℚ × Option String)) :=
  let per := (alistGet bt symbol).getD []
  let per1 := alistSet per exchange
    { best_bid := some bid, best_ask := some ask, exchange := exchange,
      timestamp := ts }
  (alistSet bt symbol per1, synthFold per1)

/-- One step of the spec-side maximum: keep the incumbent (earlier venue) on
    ties, replace only on a strictly higher remaining bid. -/
def pickBid (b : ℚ) (venue : String) : Option (ℚ × String) → Option (ℚ × String)
  | none => some (b, venue)
  | some q => if b < q.1 then some q else some (b, venue)

/-- One step of the spec-side minimum: keep the earlier venue on ties. -/
def pickAsk (a : ℚ) (venue : String) : Option (ℚ × String) → Option (ℚ × String)
  | none => some (a, venue)
  | some q => if q.1 < a then some q else some (a, venue)

/-- Maximum bid over the venue map together with the first venue attaining it,
    written from the spec's description (max over venues, ties to the first in
    iteration order). -/
def bestBidSpec : AList String MarketState → Option (ℚ × String)
  | [] => none
  | p :: rest =>
    match p.2.best_bid with
    | none => bestBidSpec rest
    | some b => pickBid b p.1 (bestBidSpec rest)

/-- Minimum ask over the venue map with the first venue attaining it. -/
def bestAskSpec : AList String MarketState → Option (ℚ × String)
  | [] => none
  | p :: rest =>
    match p.2.best_ask with
    | none => bestAskSpec rest
    | some a => pickAsk a p.1 (bestAskSpec rest)

/-- Merge of an accumulator with the best of the remaining list, mirroring the
    strict-comparison update of bid_step. -/
def combineBid (acc : Option ℚ × Option String) (s : Option (ℚ × String)) :
    Option ℚ × Option String :=
  match s with
  | none => acc
  | some q =>
    match acc.1 with
    | none => (some q.1, some q.2)
    | some cur => if cur < q.1 then (some q.1, some q.2) else acc

/-- Ask-side merge with the strict-comparison update of ask_step. -/
def combineAsk (acc : Option ℚ × Option String) (s : Option (ℚ × String)) :
    Option ℚ × Option String :=
  match s with
  | none => acc
  | some q =>
    match acc.1 with
    | none => (some q.1, some q.2)
    | some cur => if q.1 < cur then (some q.1, some q.2) else acc

theorem foldl_bid_step (l : AList String MarketState) (acc : Option ℚ × Option String) :
    l.foldl bid_step acc = combineBid acc (bestBidSpec l) := by
  induction l generalizing acc with
  | nil => rfl
  | cons p rest ih =>
    rw [List.foldl_cons, ih]
    obtain ⟨a1, a2⟩ := acc
    cases hb : p.2.best_bid with
    | none => simp [bid_step, bestBidSpec, hb]
    | some b =>
      cases hspec : bestBidSpec rest with
      | none =>
        cases a1 with
        | none =>
          simp [bid_step, bestBidSpec, combineBid, pickBid, hb, hspec]
        | some cur =>
          simp only [bid_step, bestBidSpec, combineBid, pickBid, hb, hspec]
      | some q =>
        cases a1 with
        | none =>
          simp only [bid_step, bestBidSpec, combineBid, pickBid, hb, hspec]
          try (split <;> rfl)
        | some cur =>
          simp only [bid_step, bestBidSpec, combineBid, pickBid, hb, hspec]
          by_cases hcb : cur < b <;> by_cases hbq : b < q.1 <;>
            by_cases hcq : cur < q.1 <;>
            simp [hcb, hbq, hcq] <;> linarith

theorem foldl_ask_step (l : AList String MarketState) (acc : Option ℚ × Option String) :
    l.foldl ask_step acc = combineAsk acc (bestAskSpec l) := by
  induction l generalizing acc with
  | nil => rfl
  | cons p rest ih =>
    rw [List.foldl_cons, ih]
    obtain ⟨a1, a2⟩ := acc
    cases hb : p.2.best_ask with
    | none => simp [ask_step, bestAskSpec, hb]
    | some b =>
      cases hspec : bestAskSpec rest with
      | none =>
        cases a1 with
        | none =>
          simp [ask_step, bestAskSpec, combineAsk, pickAsk, hb, hspec]
        | some cur =>
          simp only [ask_step, bestAskSpec, combineAsk, pickAsk, hb, hspec]
      | some q =>
        cases a1 with
        | none =>
          simp only [ask_step, bestAskSpec, combineAsk, pickAsk, hb, hspec]
          try (split <;> rfl)
        | some cur =>
          simp only [ask_step, bestAskSpec, combineAsk, pickAsk, hb, hspec]
          by_cases hcb : b < cur <;> by_cases hbq : q.1 < b <;>
            by_cases hcq : q.1 < cur <;>
            simp [hcb, hbq, hcq] <;> linarith

theorem foldl_synth_pair (l : AList String MarketState)
    (b c : Option ℚ × Option String) :
    l.foldl synth_step (b, c) = (l.foldl bid_step b, l.foldl ask_step c) := by
  induction l generalizing b c with
  | nil => rfl
  | cons p rest ih => simp [List.foldl_cons, synth_step, ih]

theorem synthFold_eq_spec (l : AList String MarketState) :
    synthFold l = (combineBid (none, none) (bestBidSpec l),
      combineAsk (none, none) (bestAskSpec l)) := by
  unfold synthFold
  rw [foldl_synth_pair, foldl_bid_step, foldl_ask_step]

theorem bestBidSpec_none (l : AList String MarketState) :
    bestBidSpec l = none ↔ ∀ p ∈ l, p.2.best_bid = none := by
  induction l with
  | nil => simp [bestBidSpec]
  | cons p rest ih =>
    cases hb : p.2.best_bid with
    | none => simp [bestBidSpec, hb, ih]
    | some b =>
      simp only [bestBidSpec, hb]
      constructor
      · intro h
        exfalso
        cases hspec : bestBidSpec rest with
        | none =>
          rw [hspec] at h
          simp [pickBid] at h
        | some q =>
          rw [hspec] at h
          by_cases hlt : b < q.1 <;> simp [pickBid, hlt] at h
      · intro h
        exact absurd (h p (List.mem_cons_self p rest)) (by simp [hb])

theorem bestBidSpec_ub (l : AList String MarketState) (q : ℚ × String)
    (h : bestBidSpec l = some q) :
    ∀ p ∈ l, ∀ b, p.2.best_bid = some b → b ≤ q.1 := by
  induction l generalizing q with
  | nil => simp [bestBidSpec] at h
  | cons p0 rest ih =>
    intro p hp b hb
    cases hb0 : p0.2.best_bid with
    | none =>
      simp only [bestBidSpec, hb0] at h
      rcases List.mem_cons.mp hp with hh | hh
      · subst hh
        rw [hb0] at hb
        exact absurd hb (by simp)
      · exact ih q h p hh b hb
    | some b0 =>
      simp only [bestBidSpec, hb0] at h
      cases hspec : bestBidSpec rest with
      | none =>
        rw [hspec] at h
        simp only [pickBid, Option.some.injEq] at h
        subst h
        rcases List.mem_cons.mp hp with hh | hh
        · subst hh
          rw [hb0] at hb
          simp only [Option.some.injEq] at hb
          subst hb
          exact le_refl _
        · have hnone := (bestBidSpec_none rest).mp hspec p hh
          rw [hnone] at hb
          exact absurd hb (by simp)
      | some q0 =>
        rw [hspec] at h
        simp only [pickBid] at h
        by_cases hlt : b0 < q0.1
        · rw [if_pos hlt, Option.some.injEq] at h
          subst h
          rcases List.mem_cons.mp hp with hh | hh
          · subst hh
            rw [hb0] at hb
            simp only [Option.some.injEq] at hb
            subst hb
            exact le_of_lt hlt
          · exact ih q0 hspec p hh b hb
        · rw [if_neg hlt, Option.some.injEq] at h
          subst h
          rcases List.mem_cons.mp hp with hh | hh
          · subst hh
            rw [hb0] at hb
            simp only [Option.some.injEq] at hb
            subst hb
            exact le_refl _
          · have hle := ih q0 hspec p hh b hb
            push_neg at hlt
            calc b ≤ q0.1 := hle
              _ ≤ b0 := hlt

theorem bestBidSpec_first (l : AList String MarketState) (q : ℚ × String)
    (h : bestBidSpec l = some q) :
    (l.find? (fun p => decide (p.2.best_bid = some q.1))).map Prod.fst
      = some q.2 := by
  induction l generalizing q with
  | nil => simp [bestBidSpec] at h
  | cons p0 rest ih =>
    cases hb0 : p0.2.best_bid with
    | none =>
      simp only [bestBidSpec, hb0] at h
      rw [List.find?_cons_of_neg _ (by simp [hb0])]
      exact ih q h
    | some b0 =>
      simp only [bestBidSpec, hb0] at h
      cases hspec : bestBidSpec rest with
      | none =>
        rw [hspec] at h
        simp only [pickBid, Option.some.injEq] at h
        subst h
        rw [List.find?_cons_of_pos _ (by simp [hb0])]
        simp
      | some q0 =>
        rw [hspec] at h
        simp only [pickBid] at h
        by_cases hlt : b0 < q0.1
        · rw [if_pos hlt, Option.some.injEq] at h
          subst h
          rw [List.find?_cons_of_neg _ (by simp [hb0]; linarith)]
          exact ih q0 hspec
        · rw [if_neg hlt, Option.some.injEq] at h
          subst h
          rw [List.find?_cons_of_pos _ (by simp [hb0])]
          simp

theorem bestAskSpec_none (l : AList String MarketState) :
    bestAskSpec l = none ↔ ∀ p ∈ l, p.2.best_ask = none := by
  induction l with
  | nil => simp [bestAskSpec]
  | cons p rest ih =>
    cases hb : p.2.best_ask with
    | none => simp [bestAskSpec, hb, ih]
    | some b =>
      simp only [bestAskSpec, hb]
      constructor
      · intro h
        exfalso
        cases hspec : bestAskSpec rest with
        | none =>
          rw [hspec] at h
          simp [pickAsk] at h
        | some q =>
          rw [hspec] at h
          by_cases hlt : q.1 < b <;> simp [pickAsk, hlt] at h
      · intro h
        exact absurd (h p (List.mem_cons_self p rest)) (by simp [hb])

theorem bestAskSpec_lb (l : AList String MarketState) (q : ℚ × String)
    (h : bestAskSpec l = some q) :
    ∀ p ∈ l, ∀ a, p.2.best_ask = some a → q.1 ≤ a := by
  induction l generalizing q with
  | nil => simp [bestAskSpec] at h
  | cons p0 rest ih =>
    intro p hp b hb
    cases hb0 : p0.2.best_ask with
    | none =>
      simp only [bestAskSpec, hb0] at h
      rcases List.mem_cons.mp hp with hh | hh
      · subst hh
        rw [hb0] at hb
        exact absurd hb (by simp)
      · exact ih q h p hh b hb
    | some b0 =>
      simp only [bestAskSpec, hb0] at h
      cases hspec : bestAskSpec rest with
      | none =>
        rw [hspec] at h
        simp only [pickAsk, Option.some.injEq] at h
        subst h
        rcases List.mem_cons.mp hp with hh | hh
        · subst hh
          rw [hb0] at hb
          simp only [Option.some.injEq] at hb
          subst hb
          exact le_refl _
        · have hnone := (bestAskSpec_none rest).mp hspec p hh
          rw [hnone] at hb
          exact absurd hb (by simp)
      | some q0 =>
        rw [hspec] at h
        simp only [pickAsk] at h
        by_cases hlt : q0.1 < b0
        · rw [if_pos hlt, Option.some.injEq] at h
          subst h
          rcases List.mem_cons.mp hp with hh | hh
          · subst hh
            rw [hb0] at hb
            simp only [Option.some.injEq] at hb
            subst hb
            exact le_of_lt hlt
          · exact ih q0 hspec p hh b hb
        · rw [if_neg hlt, Option.some.injEq] at h
          subst h
          rcases List.mem_cons.mp hp with hh | hh
          · subst hh
            rw [hb0] at hb
            simp only [Option.some.injEq] at hb
            subst hb
            exact le_refl _
          · have hle := ih q0 hspec p hh b hb
            push_neg at hlt
            calc b0 ≤ q0.1 := hlt
              _ ≤ b := hle

theorem bestAskSpec_first (l : AList String MarketState) (q : ℚ × String)
    (h : bestAskSpec l = some q) :
    (l.find? (fun p => decide (p.2.best_ask = some q.1))).map Prod.fst
      = some q.2 := by
  induction l generalizing q with
  | nil => simp [bestAskSpec] at h
  | cons p0 rest ih =>
    cases hb0 : p0.2.best_ask with
    | none =>
      simp only [bestAskSpec, hb0] at h
      rw [List.find?_cons_of_neg _ (by simp [hb0])]
      exact ih q h
    | some b0 =>
      simp only [bestAskSpec, hb0] at h
      cases hspec : bestAskSpec rest with
      | none =>
        rw [hspec] at h
        simp only [pickAsk, Option.some.injEq] at h
        subst h
        rw [List.find?_cons_of_pos _ (by simp [hb0])]
        simp
      | some q0 =>
        rw [hspec] at h
        simp only [pickAsk] at h
        by_cases hlt : q0.1 < b0
        · rw [if_pos hlt, Option.some.injEq] at h
          subst h
          rw [List.find?_cons_of_neg _ (by simp [hb0]; linarith)]
          exact ih q0 hspec
        · rw [if_neg hlt, Option.some.injEq] at h
          subst h
          rw [List.find?_cons_of_pos _ (by simp [hb0])]
          simp

/-- C4. After handle_best_touch the per-symbol venue map holds the new quote,
    and the synthetic best satisfies: the bid side is absent exactly when no
    stored venue has a bid; when the spec-side maximum (with first-venue
    tie-break) is (v, x), the computed synthetic bid is exactly (some v,
    some x), v bounds every stored bid from above, and x is the first venue in
    iteration order whose bid equals v; symmetrically for the ask side with
    the minimum. -/
theorem handle_best_touch_synth (bt : AList String (AList String MarketState))
    (exchange symbol : String) (bid ask ts : ℚ) :
    (handle_best_touch bt exchange symbol bid ask ts).1
        = alistSet bt symbol (alistSet ((alistGet bt symbol).getD []) exchange
            { best_bid := some bid, best_ask := some ask, exchange := exchange,
              timestamp := ts }) ∧
    ((handle_best_touch bt exchange symbol bid ask ts).2.1.1 = none ↔
      ∀ p ∈ alistSet ((alistGet bt symbol).getD []) exchange
          { best_bid := some bid, best_ask := some ask, exchange := exchange,
            timestamp := ts }, p.2.best_bid = none) ∧
    (∀ q : ℚ × String,
      bestBidSpec (alistSet ((alistGet bt symbol).getD []) exchange
          { best_bid := some bid, best_ask := some ask, exchange := exchange,
            timestamp := ts }) = some q →
      (handle_best_touch bt exchange symbol bid ask ts).2.1
          = (some q.1, some q.2) ∧
      (∀ p ∈ alistSet ((alistGet bt symbol).getD []) exchange
          { best_bid := some bid, best_ask := some ask, exchange := exchange,
            timestamp := ts }, ∀ b, p.2.best_bid = some b → b ≤ q.1) ∧
      ((alistSet ((alistGet bt symbol).getD []) exchange
          { best_bid := some bid, best_ask := some ask, exchange := exchange,
            timestamp := ts }).find?
          (fun p => decide (p.2.best_bid = some q.1))).map Prod.fst = some q.2) ∧
    ((handle_best_touch bt exchange symbol bid ask ts).2.2.1 = none ↔
      ∀ p ∈ alistSet ((alistGet bt symbol).getD []) exchange
          { best_bid := some bid, best_ask := some ask, exchange := exchange,
            timestamp := ts }, p.2.best_ask = none) ∧
    (∀ q : ℚ × String,
      bestAskSpec (alistSet ((alistGet bt symbol).getD []) exchange
          { best_bid := some bid, best_ask := some ask, exchange := exchange,
            timestamp := ts }) = some q →
      (handle_best_touch bt exchange symbol bid ask ts).2.2
          = (some q.1, some q.2) ∧
      (∀ p ∈ alistSet ((alistGet bt symbol).getD []) exchange
          { best_bid := some bid, best_ask := some ask, exchange := exchange,
            timestamp := ts }, ∀ a, p.2.best_ask = some a → q.1 ≤ a) ∧
      ((alistSet ((alistGet bt symbol).getD []) exchange
          { best_bid := some bid, best_ask := some ask, exchange := exchange,
            timestamp := ts }).find?
          (fun p => decide (p.2.best_ask = some q.1))).map Prod.fst = some q.2) := by
  have hsnd : (handle_best_touch bt exchange symbol bid ask ts).2
      = synthFold (alistSet ((alistGet bt symbol).getD []) exchange
          { best_bid := some bid, best_ask := some ask, exchange := exchange,
            timestamp := ts }) := rfl
  refine ⟨rfl, ?_, ?_, ?_, ?_⟩
  · rw [hsnd, synthFold_eq_spec]
    cases hspec : bestBidSpec (alistSet ((alistGet bt symbol).getD []) exchange
        { best_bid := some bid, best_ask := some ask, exchange := exchange,
          timestamp := ts }) with
    | none =>
      simp only [combineBid]
      constructor
      · intro _
        exact (bestBidSpec_none _).mp hspec
      · intro _
        trivial
    | some q =>
      simp only [combineBid]
      constructor
      · intro h
        simp at h
      · intro h
        exact absurd hspec (by simp [(bestBidSpec_none _).mpr h])
  · intro q hspec
    refine ⟨?_, bestBidSpec_ub _ q hspec, bestBidSpec_first _ q hspec⟩
    rw [hsnd, synthFold_eq_spec, hspec]
    rfl
  · rw [hsnd, synthFold_eq_spec]
    cases hspec : bestAskSpec (alistSet ((alistGet bt symbol).getD []) exchange
        { best_bid := some bid, best_ask := some ask, exchange := exchange,
          timestamp := ts }) with
    | none =>
      simp only [combineAsk]
      constructor
      · intro _
        exact (bestAskSpec_none _).mp hspec
      · intro _
        trivial
    | some q =>
      simp only [combineAsk]
      constructor
      · intro h
        simp at h
      · intro h
        exact absurd hspec (by simp [(bestAskSpec_none _).mpr h])
  · intro q hspec
    refine ⟨?_, bestAskSpec_lb _ q hspec, bestAskSpec_first _ q hspec⟩
    rw [hsnd, synthFold_eq_spec, hspec]
    rfl

/-- Stored quote of venue A used by the C4 witness (bid 100, ask 102). -/
def msA : MarketState :=
  { best_bid := some 100, best_ask := some 102, exchange := "A", timestamp := 0 }

/-- Best-touch table before the witness update: only venue A has quoted. -/
def btW : AList String (AList String MarketState) := [("BTCUSDT", [("A", msA)])]

theorem handle_best_touch_synth_witness :
    (handle_best_touch btW "B" "BTCUSDT" 99 101 1).2.1 = (some 100, some "A") ∧
    (handle_best_touch btW "B" "BTCUSDT" 99 101 1).2.2 = (some 101, some "B") := by
  have h := handle_best_touch_synth btW "B" "BTCUSDT" 99 101 1
  exact ⟨(h.2.2.1 (100, "A") (by decide)).1, (h.2.2.2.2 (101, "B") (by decide)).1⟩

theorem exec_one_eq_of_none (bb ba : Option ℚ) (s : AppState) (tid : String)
    (h : alistGet s.orders tid = none) : exec_one bb ba s tid = s := by
  simp [exec_one, h]

theorem exec_one_eq_of_not_open (bb ba : Option ℚ) (s : AppState) (tid : String)
    (o : Order) (h : alistGet s.orders tid = some o) (ho : ¬o.status = "open") :
    exec_one bb ba s tid = s := by
  simp [exec_one, h, ho]

theorem exec_one_eq_of_no_cross (bb ba : Option ℚ) (s : AppState) (tid : String)
    (o : Order) (h : alistGet s.orders tid = some o) (ho : o.status = "open")
    (hf : fill_price_for o bb ba = none) : exec_one bb ba s tid = s := by
  simp [exec_one, h, ho, hf]

theorem exec_one_fill_run (bb ba : Option ℚ) (s : AppState) (tid : String)
    (o : Order) (fp : ℚ) (hget : alistGet s.orders tid = some o)
    (hst : o.status = "open") (hf : fill_price_for o bb ba = some fp) :
    exec_one bb ba s tid
      = { s with
          orders := alistSet s.orders tid
            { o with status := "filled", filled_price := some fp }
          balances := apply_fill s.balances o.username o.side o.symbol fp
            o.quantity o.reserved_amount
          open_orders_by_symbol :=
            match alistGet s.open_orders_by_symbol o.symbol with
            | some lst => alistSet s.open_orders_by_symbol o.symbol
                (lst.filter (fun t => t ≠ tid))
            | none => s.open_orders_by_symbol } := by
  simp [exec_one, hget, hst, hf]

/-- Token is inert for exec_one: missing, not open, or not crossing the touch. -/
def goodTid (bb ba : Option ℚ) (s : AppState) (tid : String) : Prop :=
  match alistGet s.orders tid with
  | none => True
  | some o => ¬o.status = "open" ∨ fill_price_for o bb ba = none

theorem exec_one_eq_of_good (bb ba : Option ℚ) (s : AppState) (tid : String)
    (h : goodTid bb ba s tid) : exec_one bb ba s tid = s := by
  unfold goodTid at h
  cases hget : alistGet s.orders tid with
  | none => exact exec_one_eq_of_none bb ba s tid hget
  | some o =>
    rw [hget] at h
    rcases h with h | h
    · exact exec_one_eq_of_not_open bb ba s tid o hget h
    · by_cases ho : o.status = "open"
      · exact exec_one_eq_of_no_cross bb ba s tid o hget ho h
      · exact exec_one_eq_of_not_open bb ba s tid o hget ho

theorem exec_one_orders_cases (bb ba : Option ℚ) (s : AppState) (tid tid' : String) :
    alistGet (exec_one bb ba s tid).orders tid' = alistGet s.orders tid' ∨
    ∃ o, alistGet (exec_one bb ba s tid).orders tid' = some o ∧
      o.status = "filled" := by
  cases hget : alistGet s.orders tid with
  | none => left; rw [exec_one_eq_of_none bb ba s tid hget]
  | some o =>
    by_cases hst : o.status = "open"
    · cases hf : fill_price_for o bb ba with
      | none => left; rw [exec_one_eq_of_no_cross bb ba s tid o hget hst hf]
      | some fp =>
        rw [exec_one_fill_run bb ba s tid o fp hget hst hf]
        by_cases htid : tid = tid'
        · subst htid
          right
          exact ⟨{ o with status := "filled", filled_price := some fp },
            alistGet_set_self _ _ _, rfl⟩
        · left
          exact alistGet_set_ne _ _ _ _ (fun hh => htid hh.symm)
    · left; rw [exec_one_eq_of_not_open bb ba s tid o hget hst]

theorem goodTid_preserved (bb ba : Option ℚ) (s : AppState) (tid tid' : String)
    (h : goodTid bb ba s tid') : goodTid bb ba (exec_one bb ba s tid) tid' := by
  rcases exec_one_orders_cases bb ba s tid tid' with hc | ⟨o, hc, ho⟩
  · unfold goodTid at h ⊢
    rw [hc]
    exact h
  · unfold goodTid
    rw [hc]
    left
    simp [ho]

theorem exec_one_makes_good (bb ba : Option ℚ) (s : AppState) (tid : String) :
    goodTid bb ba (exec_one bb ba s tid) tid := by
  cases hget : alistGet s.orders tid with
  | none =>
    unfold goodTid
    rw [exec_one_eq_of_none bb ba s tid hget, hget]
    trivial
  | some o =>
    by_cases hst : o.status = "open"
    · cases hf : fill_price_for o bb ba with
      | none =>
        unfold goodTid
        rw [exec_one_eq_of_no_cross bb ba s tid o hget hst hf, hget]
        right
        exact hf
      | some fp =>
        unfold goodTid
        rw [exec_one_fill_run bb ba s tid o fp hget hst hf]
        have : alistGet (alistSet s.orders tid
            { o with status := "filled", filled_price := some fp }) tid
          = some { o with status := "filled", filled_price := some fp } :=
          alistGet_set_self _ _ _
        rw [this]
        left
        simp
    · unfold goodTid
      rw [exec_one_eq_of_not_open bb ba s tid o hget hst, hget]
      left
      exact hst

/-- Open-order id list of a symbol. -/
def listAt (s : AppState) (symbol : String) : List String :=
  (alistGet s.open_orders_by_symbol symbol).getD []

theorem exec_one_index_shrink (bb ba : Option ℚ) (s : AppState) (tid : String)
    (sym : String) : listAt (exec_one bb ba s tid) sym ⊆ listAt s sym := by
  cases hget : alistGet s.orders tid with
  | none =>
    rw [exec_one_eq_of_none bb ba s tid hget]
    exact fun x hx => hx
  | some o =>
    by_cases hst : o.status = "open"
    · cases hf : fill_price_for o bb ba with
      | none =>
        rw [exec_one_eq_of_no_cross bb ba s tid o hget hst hf]
        exact fun x hx => hx
      | some fp =>
        rw [exec_one_fill_run bb ba s tid o fp hget hst hf]
        unfold listAt
        cases hoo : alistGet s.open_orders_by_symbol o.symbol with
        | none => simp [hoo]
        | some lst =>
          simp only [hoo]
          by_cases hsym : o.symbol = sym
          · subst hsym
            rw [alistGet_set_self, hoo]
            simp only [Option.getD_some]
            exact fun x hx => (List.mem_filter.mp hx).1
          · rw [alistGet_set_ne _ _ _ _ (fun hh => hsym hh.symm)]
            exact fun x hx => hx
    · rw [exec_one_eq_of_not_open bb ba s tid o hget hst]
      exact fun x hx => hx

theorem foldl_good_stable (bb ba : Option ℚ) (L : List String) (s : AppState)
    (tid : String) (h : goodTid bb ba s tid) :
    goodTid bb ba (L.foldl (exec_one bb ba) s) tid := by
  induction L generalizing s with
  | nil => exact h
  | cons t rest ih =>
    rw [List.foldl_cons]
    exact ih _ (goodTid_preserved bb ba s t tid h)

theorem foldl_good_of_mem (bb ba : Option ℚ) (L : List String) (s : AppState)
    (tid : String) (h : tid ∈ L) :
    goodTid bb ba (L.foldl (exec_one bb ba) s) tid := by
  induction L generalizing s with
  | nil => exact absurd h (List.not_mem_nil tid)
  | cons t rest ih =>
    rw [List.foldl_cons]
    rcases List.mem_cons.mp h with hh | hh
    · subst hh
      exact foldl_good_stable bb ba rest _ tid (exec_one_makes_good bb ba s tid)
    · exact ih _ hh

theorem foldl_index_shrink (bb ba : Option ℚ) (L : List String) (s : AppState)
    (sym : String) :
    listAt (L.foldl (exec_one bb ba) s) sym ⊆ listAt s sym := by
  induction L generalizing s with
  | nil => exact fun x hx => hx
  | cons t rest ih =>
    rw [List.foldl_cons]
    exact fun x hx => exec_one_index_shrink bb ba s t sym (ih _ hx)

theorem foldl_noop (bb ba : Option ℚ) (L : List String) (s : AppState)
    (h : ∀ tid ∈ L, goodTid bb ba s tid) : L.foldl (exec_one bb ba) s = s := by
  induction L with
  | nil => rfl
  | cons t rest ih =>
    rw [List.foldl_cons, exec_one_eq_of_good bb ba s t
      (h t (List.mem_cons_self t rest))]
    exact ih (fun q hq => h q (List.mem_cons_of_mem t hq))

/-- C5. execute_on_best_touch is idempotent: a second run with the same bests
    immediately after the first leaves orders, balances and the open index
    unchanged, because every id left in the index was already processed and is
    now missing, terminal or non-crossing. -/
theorem execute_on_best_touch_idem (s : AppState) (symbol : String)
    (bb ba : Option ℚ) :
    execute_on_best_touch (execute_on_best_touch s symbol bb ba) symbol bb ba
      = execute_on_best_touch s symbol bb ba := by
  by_cases hnone : bb = none ∧ ba = none
  · simp [execute_on_best_touch, hnone]
  · have hrun : ∀ t : AppState, execute_on_best_touch t symbol bb ba
        = (listAt t symbol).foldl (exec_one bb ba) t := by
      intro t
      unfold execute_on_best_touch listAt
      rw [if_neg hnone]
    rw [hrun, hrun]
    apply foldl_noop
    intro tid htid
    have hsub : listAt ((listAt s symbol).foldl (exec_one bb ba) s) symbol
        ⊆ listAt s symbol :=
      foldl_index_shrink bb ba (listAt s symbol) s symbol
    exact foldl_good_of_mem bb ba (listAt s symbol) s tid (hsub htid)

/-- Contribution of one order to the reserved funds of (user, asset): its
    reserved_amount when it is open, owned by the user and reserving that
    asset. -/
def contrib (o : Order) (u a : String) : ℚ :=
  if o.status = "open" ∧ o.username = u ∧ reserveAsset o = a then o.reserved_amount
  else 0

/-- Total reserved funds of (user, asset) over the order store. -/
def reservedSum (orders : AList String Order) (u a : String) : ℚ :=
  (orders.map (fun p => contrib p.2 u a)).sum

/-- Reserve-accounting property of one (user, asset) balance: available is
    nonnegative and available plus outstanding reservations fits in total. -/
def balOk (s : AppState) (u a : String) : Prop :=
  0 ≤ (lookupBalance s.balances u a).available ∧
  (lookupBalance s.balances u a).available + reservedSum s.orders u a
      ≤ (lookupBalance s.balances u a).total

/-- Well-formedness of an open order as place_order creates it. -/
def openOrderOk (o : Order) : Prop :=
  0 < o.price ∧ 0 < o.quantity ∧
  o.reserved_amount = (if o.side = "buy" then o.price * o.quantity else o.quantity)

/-- Finite support of the balance accounting: all (user, asset) pairs with a
    balance entry or an order reservation. -/
def support (s : AppState) : List (String × String) :=
  (s.balances.map (fun p => p.2.map (fun q => (p.1, q.1)))).join ++
    s.orders.map (fun p => (p.2.username, reserveAsset p.2))

/-- Inductive invariant of the paper engine: reserve accounting on the support
    and well-formed open orders. -/
def Inv (s : AppState) : Prop :=
  (∀ kv ∈ support s, balOk s kv.1 kv.2) ∧
  (∀ p ∈ s.orders, p.2.status = "open" → openOrderOk p.2)

theorem reservedSum_nil (u a : String) : reservedSum [] u a = 0 := rfl

theorem reservedSum_cons (p : String × Order) (rest : AList String Order)
    (u a : String) :
    reservedSum (p :: rest) u a = contrib p.2 u a + reservedSum rest u a := by
  simp [reservedSum]

theorem reservedSum_set (orders : AList String Order) (tid : String) (o o' : Order)
    (u a : String) (hget : alistGet orders tid = some o) :
    reservedSum (alistSet orders tid o') u a
      = reservedSum orders u a - contrib o u a + contrib o' u a := by
  induction orders with
  | nil => simp [alistGet] at hget
  | cons p rest ih =>
    by_cases hp : p.1 = tid
    · simp only [alistGet, hp, if_true] at hget
      have ho : o = p.2 := by injection hget with hh; exact hh.symm
      subst ho
      simp only [alistSet, hp, if_true]
      rw [reservedSum_cons, reservedSum_cons]
      ring
    · simp only [alistGet, hp, if_false] at hget
      simp only [alistSet, hp, if_false]
      rw [reservedSum_cons, reservedSum_cons, ih hget]
      ring

theorem reservedSum_append_single (orders : AList String Order) (tid : String)
    (o' : Order) (u a : String) :
    reservedSum (orders ++ [(tid, o')]) u a
      = reservedSum orders u a + contrib o' u a := by
  simp [reservedSum]

theorem contrib_nonneg (o : Order) (u a : String) (h : o.status = "open" → openOrderOk o) :
    0 ≤ contrib o u a := by
  unfold contrib
  split
  · rename_i hc
    obtain ⟨hp, hq, hr⟩ := h hc.1
    rw [hr]
    split
    · positivity
    · positivity
  · exact le_refl 0

theorem reservedSum_nonneg (orders : AList String Order) (u a : String)
    (hwf : ∀ p ∈ orders, p.2.status = "open" → openOrderOk p.2) :
    0 ≤ reservedSum orders u a := by
  unfold reservedSum
  apply List.sum_nonneg
  intro x hx
  rcases List.mem_map.mp hx with ⟨p, hp, hpx⟩
  rw [← hpx]
  exact contrib_nonneg p.2 u a (hwf p hp)

theorem mem_support_of_balance_entry (s : AppState) (u a : String)
    (ub : AList String Balance) (b : Balance)
    (h1 : alistGet s.balances u = some ub) (h2 : alistGet ub a = some b) :
    (u, a) ∈ support s := by
  apply List.mem_append_left
  rw [List.mem_join]
  refine ⟨ub.map (fun q => (u, q.1)), ?_, ?_⟩
  · have := alistGet_mem s.balances u ub h1
    exact List.mem_map.mpr ⟨(u, ub), this, rfl⟩
  · exact List.mem_map.mpr ⟨(a, b), alistGet_mem ub a b h2, rfl⟩

theorem lookupBalance_default_of_not_support (s : AppState) (u a : String)
    (h : (u, a) ∉ support s) : lookupBalance s.balances u a = {} := by
  unfold lookupBalance
  cases h1 : alistGet s.balances u with
  | none => rfl
  | some ub =>
    cases h2 : alistGet ub a with
    | none => simp [h2]
    | some b =>
      exact absurd (mem_support_of_balance_entry s u a ub b h1 h2) h

theorem reservedSum_zero_of_not_support (s : AppState) (u a : String)
    (h : (u, a) ∉ support s) : reservedSum s.orders u a = 0 := by
  unfold reservedSum
  have hz : ∀ p ∈ s.orders, contrib p.2 u a = 0 := by
    intro p hp
    unfold contrib
    split
    · rename_i hc
      exfalso
      apply h
      apply List.mem_append_right
      exact List.mem_map.mpr ⟨p, hp, by rw [hc.2.1, hc.2.2]⟩
    · rfl
  calc (s.orders.map (fun p => contrib p.2 u a)).sum
      = (s.orders.map (fun _ => (0 : ℚ))).sum := by
        congr 1
        exact List.map_congr_left hz
    _ = 0 := by simp

theorem inv_to_all (s : AppState) (hInv : Inv s) : ∀ u a, balOk s u a := by
  intro u a
  by_cases hmem : (u, a) ∈ support s
  · exact hInv.1 (u, a) hmem
  · unfold balOk
    rw [lookupBalance_default_of_not_support s u a hmem,
      reservedSum_zero_of_not_support s u a hmem]
    constructor
    · exact le_refl _
    · show (0 : ℚ) + 0 ≤ 0
      norm_num

theorem inv_of_all (s : AppState) (h1 : ∀ u a, balOk s u a)
    (h2 : ∀ p ∈ s.orders, p.2.status = "open" → openOrderOk p.2) : Inv s :=
  ⟨fun kv _ => h1 kv.1 kv.2, h2⟩

/-- Reserve accounting over every (user, asset), phrased on the balance table
    and order store components. -/
def acctOk (bs : AList String (AList String Balance)) (os : AList String Order) : Prop :=
  ∀ u a, 0 ≤ (lookupBalance bs u a).available ∧
    (lookupBalance bs u a).available + reservedSum os u a ≤ (lookupBalance bs u a).total

theorem acctOk_of_inv (s : AppState) (hInv : Inv s) : acctOk s.balances s.orders :=
  fun u a => inv_to_all s hInv u a

theorem inv_of_acct (s : AppState) (h1 : acctOk s.balances s.orders)
    (h2 : ∀ p ∈ s.orders, p.2.status = "open" → openOrderOk p.2) : Inv s :=
  inv_of_all s (fun u a => h1 u a) h2

theorem lookupBalance_touch (bs : AList String (AList String Balance))
    (u a u' a' : String) :
    lookupBalance (updBalance bs u a id) u' a' = lookupBalance bs u' a' := by
  rw [lookupBalance_updBalance]
  split
  · rename_i h
    rw [← h.1, ← h.2]
    rfl
  · rfl

theorem release_reserve_eq (bs : AList String (AList String Balance))
    (username side symbol : String) (r : ℚ) :
    release_reserve bs username side symbol r
      = updBalance bs username
          (if side = "buy" then (split_symbol symbol).2 else (split_symbol symbol).1)
          (fun b => { b with available := b.available + r }) := by
  unfold release_reserve
  by_cases h : side = "buy" <;> simp [h]

theorem acctOk_deposit (bs : AList String (AList String Balance))
    (os : AList String Order) (u a : String) (amt : ℚ)
    (h : acctOk bs os) (hamt : 0 < amt) :
    acctOk (updBalance bs u a
      (fun b => { b with total := b.total + amt, available := b.available + amt })) os := by
  intro u' a'
  rw [lookupBalance_updBalance]
  split
  · rename_i hc
    rw [← hc.1, ← hc.2]
    obtain ⟨h1, h2⟩ := h u a
    constructor
    · show 0 ≤ (lookupBalance bs u a).available + amt
      linarith
    · show (lookupBalance bs u a).available + amt + reservedSum os u a
        ≤ (lookupBalance bs u a).total + amt
      linarith
  · exact h u' a'

theorem acctOk_touch (bs : AList String (AList String Balance))
    (os : AList String Order) (u a : String) (h : acctOk bs os) :
    acctOk (updBalance bs u a id) os := by
  intro u' a'
  rw [lookupBalance_touch]
  exact h u' a'

theorem acctOk_reserve_insert (bs : AList String (AList String Balance))
    (os : AList String Order) (u asset tid : String) (o' : Order) (amt : ℚ)
    (h : acctOk bs os) (hget : alistGet os tid = none)
    (havail : amt ≤ (lookupBalance bs u asset).available)
    (ho'_open : o'.status = "open") (ho'_user : o'.username = u)
    (ho'_ra : reserveAsset o' = asset) (ho'_amt : o'.reserved_amount = amt) :
    acctOk
      (updBalance (updBalance bs u asset id) u asset
        (fun b => { b with available := b.available - amt }))
      (alistSet os tid o') := by
  intro u' a'
  rw [lookupBalance_updBalance, lookupBalance_touch,
    alistSet_of_get_none os tid o' hget, reservedSum_append_single]
  have hcontrib : contrib o' u' a' = if u = u' ∧ asset = a' then amt else 0 := by
    unfold contrib
    rw [ho'_open, ho'_user, ho'_ra, ho'_amt]
    by_cases hc : u = u' ∧ asset = a'
    · rw [if_pos hc, if_pos (by exact ⟨rfl, hc.1, hc.2⟩)]
    · rw [if_neg hc, if_neg ?_]
      intro hcc
      exact hc ⟨hcc.2.1, hcc.2.2⟩
  rw [hcontrib]
  split
  · rename_i hc
    obtain ⟨hcu, hca⟩ := hc
    subst hcu
    subst hca
    obtain ⟨h1, h2⟩ := h u asset
    constructor
    · show 0 ≤ (lookupBalance bs u asset).available - amt
      linarith
    · show (lookupBalance bs u asset).available - amt
          + (reservedSum os u asset + amt) ≤ (lookupBalance bs u asset).total
      linarith
  · rename_i hc
    rw [lookupBalance_touch]
    obtain ⟨h1, h2⟩ := h u' a'
    exact ⟨h1, by linarith⟩

theorem acctOk_cancel (bs : AList String (AList String Balance))
    (os : AList String Order) (u tid : String) (o : Order)
    (h : acctOk bs os) (hget : alistGet os tid = some o)
    (hst : o.status = "open") (huser : o.username = u)
    (hok : openOrderOk o) :
    acctOk
      (updBalance bs u (reserveAsset o)
        (fun b => { b with available := b.available + o.reserved_amount }))
      (alistSet os tid { o with status := "cancelled" }) := by
  have hres : 0 ≤ o.reserved_amount := by
    rw [hok.2.2]
    obtain ⟨hp, hq, _⟩ := hok
    split
    · positivity
    · positivity
  intro u' a'
  rw [lookupBalance_updBalance,
    reservedSum_set os tid o { o with status := "cancelled" } u' a' hget]
  have hcc : contrib { o with status := "cancelled" } u' a' = 0 := by
    unfold contrib
    rw [if_neg ?_]
    intro hc
    simp at hc
  rw [hcc]
  have hco : contrib o u' a' = if u = u' ∧ reserveAsset o = a' then o.reserved_amount else 0 := by
    unfold contrib
    by_cases hc : u = u' ∧ reserveAsset o = a'
    · rw [if_pos hc, if_pos ⟨hst, by rw [huser]; exact hc.1, hc.2⟩]
    · rw [if_neg hc, if_neg ?_]
      intro hcc2
      exact hc ⟨by rw [← huser]; exact hcc2.2.1, hcc2.2.2⟩
  rw [hco]
  split
  · rename_i hc
    obtain ⟨hcu, hca⟩ := hc
    subst hcu
    subst hca
    obtain ⟨h1, h2⟩ := h u (reserveAsset o)
    constructor
    · show 0 ≤ (lookupBalance bs u (reserveAsset o)).available + o.reserved_amount
      linarith
    · show (lookupBalance bs u (reserveAsset o)).available + o.reserved_amount
          + (reservedSum os u (reserveAsset o) - o.reserved_amount + 0)
        ≤ (lookupBalance bs u (reserveAsset o)).total
      linarith
  · rename_i hc
    obtain ⟨h1, h2⟩ := h u' a'
    exact ⟨h1, by linarith⟩

/-- Balance update subtracting from total (quote side of a buy fill). -/
def subTotal (c : ℚ) (b : Balance) : Balance := { b with total := b.total - c }

/-- Balance update adding to both fields (base side of a buy fill, quote side
    of a sell fill). -/
def addBoth (q : ℚ) (b : Balance) : Balance :=
  { b with total := b.total + q, available := b.available + q }

/-- Balance update adding to available (excess-reservation release). -/
def addAvail (c : ℚ) (b : Balance) : Balance :=
  { b with available := b.available + c }

theorem contrib_filled (o : Order) (fp : ℚ) (u' a' : String) :
    contrib { o with status := "filled", filled_price := some fp } u' a' = 0 := by
  unfold contrib
  rw [if_neg]
  intro hc
  simp at hc

theorem acctOk_fill_buy (bs : AList String (AList String Balance))
    (os : AList String Order) (tid : String) (o : Order) (fp : ℚ)
    (h : acctOk bs os)
    (hwf : ∀ p ∈ os, p.2.status = "open" → openOrderOk p.2)
    (hget : alistGet os tid = some o) (hst : o.status = "open")
    (hbuy : o.side = "buy") (hcross : fp ≤ o.price) :
    acctOk (apply_fill bs o.username o.side o.symbol fp o.quantity o.reserved_amount)
      (alistSet os tid { o with status := "filled", filled_price := some fp }) := by
  have hok : openOrderOk o := hwf (tid, o) (alistGet_mem os tid o hget) hst
  obtain ⟨hp, hq, hr⟩ := hok
  have hres : o.reserved_amount = o.price * o.quantity := by rw [hr, if_pos hbuy]
  have hcost : fp * o.quantity ≤ o.reserved_amount := by
    rw [hres]
    exact mul_le_mul_of_nonneg_right hcross (le_of_lt hq)
  have hra : reserveAsset o = (split_symbol o.symbol).2 := by
    unfold reserveAsset
    rw [if_pos hbuy]
  intro u' a'
  rw [reservedSum_set os tid o _ u' a' hget, contrib_filled]
  have hco : contrib o u' a'
      = if o.username = u' ∧ (split_symbol o.symbol).2 = a'
        then o.reserved_amount else 0 := by
    unfold contrib
    simp [hst, hra]
  rw [hco]
  by_cases hr2 : o.reserved_amount > fp * o.quantity
  · have happ : apply_fill bs o.username o.side o.symbol fp o.quantity
        o.reserved_amount
      = updBalance
          (updBalance
            (updBalance bs o.username (split_symbol o.symbol).2
              (subTotal (fp * o.quantity)))
            o.username (split_symbol o.symbol).1 (addBoth o.quantity))
          o.username (split_symbol o.symbol).2
          (addAvail (o.reserved_amount - fp * o.quantity)) := by
      simp [apply_fill, hbuy, hr2]
      rfl
    rw [happ]
    simp only [lookupBalance_updBalance]
    by_cases hu : o.username = u'
    · by_cases ha2 : (split_symbol o.symbol).2 = a'
      · by_cases ha1 : (split_symbol o.symbol).1 = a'
        · obtain ⟨h1, h2⟩ := h u' a'
          simp only [hu, ha2, ha1, and_self, if_true, true_and]
          constructor <;> (try simp only [subTotal, addBoth, addAvail]) <;> linarith
        · obtain ⟨h1, h2⟩ := h u' a'
          simp only [hu, ha2, ha1, and_self, and_false, if_true, if_false, true_and]
          constructor <;> (try simp only [subTotal, addBoth, addAvail]) <;> linarith
      · by_cases ha1 : (split_symbol o.symbol).1 = a'
        · obtain ⟨h1, h2⟩ := h u' a'
          simp only [hu, ha2, ha1, and_self, and_false, if_true, if_false, true_and]
          constructor <;> (try simp only [subTotal, addBoth, addAvail]) <;> linarith
        · obtain ⟨h1, h2⟩ := h u' a'
          simp only [hu, ha2, ha1, and_false, if_false, true_and]
          constructor <;> (try simp only [subTotal, addBoth, addAvail]) <;> linarith
    · obtain ⟨h1, h2⟩ := h u' a'
      simp only [hu, false_and, if_false]
      constructor <;> (try simp only [subTotal, addBoth, addAvail]) <;> linarith
  · have happ : apply_fill bs o.username o.side o.symbol fp o.quantity
        o.reserved_amount
      = updBalance
          (updBalance bs o.username (split_symbol o.symbol).2
            (subTotal (fp * o.quantity)))
          o.username (split_symbol o.symbol).1 (addBoth o.quantity) := by
      simp [apply_fill, hbuy, hr2]
      rfl
    rw [happ]
    simp only [lookupBalance_updBalance]
    by_cases hu : o.username = u'
    · by_cases ha2 : (split_symbol o.symbol).2 = a'
      · by_cases ha1 : (split_symbol o.symbol).1 = a'
        · obtain ⟨h1, h2⟩ := h u' a'
          simp only [hu, ha2, ha1, and_self, if_true, true_and]
          constructor <;> (try simp only [subTotal, addBoth, addAvail]) <;> linarith
        · obtain ⟨h1, h2⟩ := h u' a'
          simp only [hu, ha2, ha1, and_self, and_false, if_true, if_false, true_and]
          constructor <;> (try simp only [subTotal, addBoth, addAvail]) <;> linarith
      · by_cases ha1 : (split_symbol o.symbol).1 = a'
        · obtain ⟨h1, h2⟩ := h u' a'
          simp only [hu, ha2, ha1, and_self, and_false, if_true, if_false, true_and]
          constructor <;> (try simp only [subTotal, addBoth, addAvail]) <;> linarith
        · obtain ⟨h1, h2⟩ := h u' a'
          simp only [hu, ha2, ha1, and_false, if_false, true_and]
          constructor <;> (try simp only [subTotal, addBoth, addAvail]) <;> linarith
    · obtain ⟨h1, h2⟩ := h u' a'
      simp only [hu, false_and, if_false]
      constructor <;> (try simp only [subTotal, addBoth, addAvail]) <;> linarith

theorem acctOk_fill_sell (bs : AList String (AList String Balance))
    (os : AList String Order) (tid : String) (o : Order) (fp : ℚ)
    (h : acctOk bs os)
    (hwf : ∀ p ∈ os, p.2.status = "open" → openOrderOk p.2)
    (hget : alistGet os tid = some o) (hst : o.status = "open")
    (hsell : o.side = "sell") (hcross : o.price ≤ fp) :
    acctOk (apply_fill bs o.username o.side o.symbol fp o.quantity o.reserved_amount)
      (alistSet os tid { o with status := "filled", filled_price := some fp }) := by
  have hok : openOrderOk o := hwf (tid, o) (alistGet_mem os tid o hget) hst
  obtain ⟨hp, hq, hr⟩ := hok
  have hnb : ¬o.side = "buy" := by rw [hsell]; decide
  have hres : o.reserved_amount = o.quantity := by rw [hr, if_neg hnb]
  have hcost : 0 < fp * o.quantity := by
    have : 0 < fp := lt_of_lt_of_le hp hcross
    positivity
  have hra : reserveAsset o = (split_symbol o.symbol).1 := by
    unfold reserveAsset
    rw [if_neg hnb]
  intro u' a'
  rw [reservedSum_set os tid o _ u' a' hget, contrib_filled]
  have hco : contrib o u' a'
      = if o.username = u' ∧ (split_symbol o.symbol).1 = a'
        then o.reserved_amount else 0 := by
    unfold contrib
    simp [hst, hra]
  rw [hco]
  have happ : apply_fill bs o.username o.side o.symbol fp o.quantity
      o.reserved_amount
    = updBalance
        (updBalance bs o.username (split_symbol o.symbol).1
          (subTotal o.quantity))
        o.username (split_symbol o.symbol).2 (addBoth (fp * o.quantity)) := by
    simp [apply_fill, hnb]
    rfl
  rw [happ]
  simp only [lookupBalance_updBalance]
  by_cases hu : o.username = u'
  · by_cases ha2 : (split_symbol o.symbol).2 = a'
    · by_cases ha1 : (split_symbol o.symbol).1 = a'
      · obtain ⟨h1, h2⟩ := h u' a'
        simp only [hu, ha2, ha1, and_self, if_true, true_and]
        constructor <;> (try simp only [subTotal, addBoth, addAvail]) <;> linarith
      · obtain ⟨h1, h2⟩ := h u' a'
        simp only [hu, ha2, ha1, and_self, and_false, if_true, if_false, true_and]
        constructor <;> (try simp only [subTotal, addBoth, addAvail]) <;> linarith
    · by_cases ha1 : (split_symbol o.symbol).1 = a'
      · obtain ⟨h1, h2⟩ := h u' a'
        simp only [hu, ha2, ha1, and_self, and_false, if_true, if_false, true_and]
        constructor <;> (try simp only [subTotal, addBoth, addAvail]) <;> linarith
      · obtain ⟨h1, h2⟩ := h u' a'
        simp only [hu, ha2, ha1, and_false, if_false, true_and]
        constructor <;> (try simp only [subTotal, addBoth, addAvail]) <;> linarith
  · obtain ⟨h1, h2⟩ := h u' a'
    simp only [hu, false_and, if_false]
    constructor <;> (try simp only [subTotal, addBoth, addAvail]) <;> linarith

theorem fill_price_cases (o : Order) (bb ba : Option ℚ) (fp : ℚ)
    (h : fill_price_for o bb ba = some fp) :
    (o.side = "buy" ∧ fp ≤ o.price) ∨ (o.side = "sell" ∧ o.price ≤ fp) := by
  unfold fill_price_for at h
  by_cases hbuy : o.side = "buy"
  · rw [if_pos hbuy] at h
    cases ba with
    | none => exact absurd h (by simp)
    | some a2 =>
      have hx : (if a2 ≤ o.price then some a2 else none) = some fp := h
      by_cases hle : a2 ≤ o.price
      · rw [if_pos hle] at hx
        left
        refine ⟨hbuy, ?_⟩
        injection hx with hx
        rw [← hx]
        exact hle
      · rw [if_neg hle] at hx
        exact absurd hx (by simp)
  · rw [if_neg hbuy] at h
    by_cases hsell : o.side = "sell"
    · rw [if_pos hsell] at h
      cases bb with
      | none => exact absurd h (by simp)
      | some b2 =>
        have hx : (if o.price ≤ b2 then some b2 else none) = some fp := h
        by_cases hle : o.price ≤ b2
        · rw [if_pos hle] at hx
          right
          refine ⟨hsell, ?_⟩
          injection hx with hx
          rw [← hx]
          exact hle
        · rw [if_neg hle] at hx
          exact absurd hx (by simp)
    · rw [if_neg hsell] at h
      exact absurd h (by simp)

theorem exec_one_preserves (bb ba : Option ℚ) (s : AppState) (tid : String)
    (h1 : acctOk s.balances s.orders)
    (h2 : ∀ p ∈ s.orders, p.2.status = "open" → openOrderOk p.2) :
    acctOk (exec_one bb ba s tid).balances (exec_one bb ba s tid).orders ∧
    (∀ p ∈ (exec_one bb ba s tid).orders, p.2.status = "open" → openOrderOk p.2) := by
  cases hget : alistGet s.orders tid with
  | none =>
    rw [exec_one_eq_of_none bb ba s tid hget]
    exact ⟨h1, h2⟩
  | some o =>
    by_cases hst : o.status = "open"
    · cases hf : fill_price_for o bb ba with
      | none =>
        rw [exec_one_eq_of_no_cross bb ba s tid o hget hst hf]
        exact ⟨h1, h2⟩
      | some fp =>
        rw [exec_one_fill_run bb ba s tid o fp hget hst hf]
        constructor
        · show acctOk (apply_fill s.balances o.username o.side o.symbol fp
            o.quantity o.reserved_amount)
            (alistSet s.orders tid
              ({ o with status := "filled", filled_price := some fp }))
          rcases fill_price_cases o bb ba fp hf with ⟨hbuy, hcross⟩ | ⟨hsell, hcross⟩
          · exact acctOk_fill_buy s.balances s.orders tid o fp h1 h2 hget hst
              hbuy hcross
          · exact acctOk_fill_sell s.balances s.orders tid o fp h1 h2 hget hst
              hsell hcross
        · intro p hp hopen
          rcases mem_alistSet s.orders tid _ p hp with hold | hnew
          · exact h2 p hold hopen
          · rw [hnew] at hopen
            simp at hopen
    · rw [exec_one_eq_of_not_open bb ba s tid o hget hst]
      exact ⟨h1, h2⟩

theorem exec_fold_preserves (bb ba : Option ℚ) (L : List String) (s : AppState)
    (h1 : acctOk s.balances s.orders)
    (h2 : ∀ p ∈ s.orders, p.2.status = "open" → openOrderOk p.2) :
    acctOk (L.foldl (exec_one bb ba) s).balances
        (L.foldl (exec_one bb ba) s).orders ∧
    (∀ p ∈ (L.foldl (exec_one bb ba) s).orders,
      p.2.status = "open" → openOrderOk p.2) := by
  induction L generalizing s with
  | nil => exact ⟨h1, h2⟩
  | cons t rest ih =>
    rw [List.foldl_cons]
    obtain ⟨g1, g2⟩ := exec_one_preserves bb ba s t h1 h2
    exact ih _ g1 g2

theorem inv_execute (s : AppState) (symbol : String) (bb ba : Option ℚ)
    (hInv : Inv s) : Inv (execute_on_best_touch s symbol bb ba) := by
  unfold execute_on_best_touch
  by_cases hnone : bb = none ∧ ba = none
  · rw [if_pos hnone]
    exact hInv
  · rw [if_neg hnone]
    obtain ⟨g1, g2⟩ := exec_fold_preserves bb ba
      ((alistGet s.open_orders_by_symbol symbol).getD []) s
      (acctOk_of_inv s hInv) hInv.2
    exact inv_of_acct _ g1 g2

/-- Order literal built by place_order. -/
def mkOrder (u tid symbol side : String) (price qty reserved created : ℚ) : Order :=
  { token_id := tid, username := u, symbol := symbol, side := side, price := price,
    quantity := qty, status := "open", filled_price := none, reason := none,
    reserved_amount := reserved, created_at := created }

theorem inv_deposit (s : AppState) (u a : String) (amt : ℚ) (hInv : Inv s)
    (hamt : 0 < amt) : Inv (deposit s u a amt) :=
  inv_of_acct _
    (acctOk_deposit s.balances s.orders u a amt (acctOk_of_inv s hInv) hamt)
    hInv.2

theorem inv_place_order (s : AppState) (u tid symbol side : String)
    (price qty created : ℚ) (hInv : Inv s) (hp : 0 < price) (hq : 0 < qty) :
    Inv (place_order s u tid symbol side price qty created).1 := by
  have hacct := acctOk_of_inv s hInv
  cases hget : alistGet s.orders tid with
  | some o0 =>
    have hrun : (place_order s u tid symbol side price qty created).1 = s := by
      simp [place_order, hget]
    rw [hrun]
    exact hInv
  | none =>
    by_cases hbuy : side = "buy"
    · by_cases hlt : (lookupBalance (updBalance s.balances u
          (split_symbol symbol).2 id) u (split_symbol symbol).2).available
          < price * qty
      · have hrun : (place_order s u tid symbol side price qty created).1
            = { s with
                balances := updBalance s.balances u (split_symbol symbol).2 id } := by
          simp [place_order, reserve_for_order, hget, hbuy, hlt]
        rw [hrun]
        refine inv_of_acct _ ?_ hInv.2
        exact acctOk_touch s.balances s.orders u (split_symbol symbol).2 hacct
      · have hrun : (place_order s u tid symbol side price qty created).1
            = { s with
                balances := updBalance (updBalance s.balances u
                    (split_symbol symbol).2 id) u (split_symbol symbol).2
                  (fun b => { b with available := b.available - price * qty })
                orders := alistSet s.orders tid
                  (mkOrder u tid symbol side price qty (price * qty) created)
                open_orders_by_symbol := alistSet s.open_orders_by_symbol symbol
                  (((alistGet s.open_orders_by_symbol symbol).getD [])
                    ++ [tid]) } := by
          simp [place_order, reserve_for_order, hget, hbuy, hlt, mkOrder]
        rw [hrun]
        refine inv_of_acct _ ?_ ?_
        · have havail : price * qty ≤ (lookupBalance s.balances u
              (split_symbol symbol).2).available := by
            push_neg at hlt
            rw [lookupBalance_touch] at hlt
            exact hlt
          have hsub : updBalance (updBalance s.balances u (split_symbol symbol).2 id)
              u (split_symbol symbol).2
              (fun b => { b with available := b.available - price * qty })
            = updBalance (updBalance s.balances u (split_symbol symbol).2 id)
              u (split_symbol symbol).2
              (fun b => { b with available := b.available - price * qty }) := rfl
          exact acctOk_reserve_insert s.balances s.orders u
            (split_symbol symbol).2 tid
            (mkOrder u tid symbol side price qty (price * qty) created)
            (price * qty) hacct hget havail rfl rfl
            (by simp [mkOrder, reserveAsset, hbuy]) rfl
        · intro p hp2 hopen
          have := alistSet_of_get_none s.orders tid
            (mkOrder u tid symbol side price qty (price * qty) created) hget
          rw [show ({ s with
                balances := updBalance (updBalance s.balances u
                    (split_symbol symbol).2 id) u (split_symbol symbol).2
                  (fun b => { b with available := b.available - price * qty })
                orders := alistSet s.orders tid
                  (mkOrder u tid symbol side price qty (price * qty) created)
                open_orders_by_symbol := alistSet s.open_orders_by_symbol symbol
                  (((alistGet s.open_orders_by_symbol symbol).getD [])
                    ++ [tid]) } : AppState).orders
              = alistSet s.orders tid
                  (mkOrder u tid symbol side price qty (price * qty) created)
            from rfl] at hp2
          rcases mem_alistSet s.orders tid _ p hp2 with hold | hnew
          · exact hInv.2 p hold hopen
          · rw [hnew]
            exact ⟨hp, hq, by simp [mkOrder, hbuy]⟩
    · by_cases hlt : (lookupBalance (updBalance s.balances u
          (split_symbol symbol).1 id) u (split_symbol symbol).1).available < qty
      · have hrun : (place_order s u tid symbol side price qty created).1
            = { s with
                balances := updBalance s.balances u (split_symbol symbol).1 id } := by
          simp [place_order, reserve_for_order, hget, hbuy, hlt]
        rw [hrun]
        refine inv_of_acct _ ?_ hInv.2
        exact acctOk_touch s.balances s.orders u (split_symbol symbol).1 hacct
      · have hrun : (place_order s u tid symbol side price qty created).1
            = { s with
                balances := updBalance (updBalance s.balances u
                    (split_symbol symbol).1 id) u (split_symbol symbol).1
                  (fun b => { b with available := b.available - qty })
                orders := alistSet s.orders tid
                  (mkOrder u tid symbol side price qty qty created)
                open_orders_by_symbol := alistSet s.open_orders_by_symbol symbol
                  (((alistGet s.open_orders_by_symbol symbol).getD [])
                    ++ [tid]) } := by
          simp [place_order, reserve_for_order, hget, hbuy, hlt, mkOrder]
        rw [hrun]
        refine inv_of_acct _ ?_ ?_
        · have havail : qty ≤ (lookupBalance s.balances u
              (split_symbol symbol).1).available := by
            push_neg at hlt
            rw [lookupBalance_touch] at hlt
            exact hlt
          exact acctOk_reserve_insert s.balances s.orders u
            (split_symbol symbol).1 tid
            (mkOrder u tid symbol side price qty qty created)
            qty hacct hget havail rfl rfl
            (by simp [mkOrder, reserveAsset, hbuy]) rfl
        · intro p hp2 hopen
          rw [show ({ s with
                balances := updBalance (updBalance s.balances u
                    (split_symbol symbol).1 id) u (split_symbol symbol).1
                  (fun b => { b with available := b.available - qty })
                orders := alistSet s.orders tid
                  (mkOrder u tid symbol side price qty qty created)
                open_orders_by_symbol := alistSet s.open_orders_by_symbol symbol
                  (((alistGet s.open_orders_by_symbol symbol).getD [])
                    ++ [tid]) } : AppState).orders
              = alistSet s.orders tid
                  (mkOrder u tid symbol side price qty qty created)
            from rfl] at hp2
          rcases mem_alistSet s.orders tid _ p hp2 with hold | hnew
          · exact hInv.2 p hold hopen
          · rw [hnew]
            exact ⟨hp, hq, by simp [mkOrder, hbuy]⟩

theorem inv_cancel_order (s : AppState) (u tid : String) (hInv : Inv s) :
    Inv (cancel_order s u tid).1 := by
  cases hget : alistGet s.orders tid with
  | none =>
    have hrun : (cancel_order s u tid).1 = s := by simp [cancel_order, hget]
    rw [hrun]
    exact hInv
  | some o =>
    by_cases huser : o.username = u
    · by_cases hst : o.status = "open"
      · have hrun : (cancel_order s u tid).1
            = { s with
                orders := alistSet s.orders tid { o with status := "cancelled" }
                balances := release_reserve s.balances u o.side o.symbol
                  o.reserved_amount
                open_orders_by_symbol :=
                  match alistGet s.open_orders_by_symbol o.symbol with
                  | some lst => alistSet s.open_orders_by_symbol o.symbol
                      (lst.filter (fun t => t ≠ tid))
                  | none => s.open_orders_by_symbol } := by
          simp [cancel_order, hget, huser, hst]
        rw [hrun]
        refine inv_of_acct _ ?_ ?_
        · show acctOk (release_reserve s.balances u o.side o.symbol
            o.reserved_amount)
            (alistSet s.orders tid { o with status := "cancelled" })
          rw [release_reserve_eq]
          exact acctOk_cancel s.balances s.orders u tid o
            (acctOk_of_inv s hInv) hget hst huser
            (hInv.2 (tid, o) (alistGet_mem s.orders tid o hget) hst)
        · intro p hp2 hopen
          rcases mem_alistSet s.orders tid _ p hp2 with hold | hnew
          · exact hInv.2 p hold hopen
          · rw [hnew] at hopen
            simp at hopen
      · have hrun : (cancel_order s u tid).1 = s := by
          simp [cancel_order, hget, huser, hst]
        rw [hrun]
        exact hInv
    · have hrun : (cancel_order s u tid).1 = s := by
        simp [cancel_order, hget, huser]
      rw [hrun]
      exact hInv

/-- Balance-mutating operations of the paper engine. -/
inductive PaperOp where
  | depositOp (username asset : String) (amount : ℚ)
  | placeOp (username token_id symbol side : String) (price qty created_at : ℚ)
  | cancelOp (username token_id : String)
  | executeOp (symbol : String) (best_bid best_ask : Option ℚ)

/-- State transition of each operation (result state only). -/
def applyOp (s : AppState) : PaperOp → AppState
  | .depositOp u a amt => deposit s u a amt
  | .placeOp u tid sym side p q c => (place_order s u tid sym side p q c).1
  | .cancelOp u tid => (cancel_order s u tid).1
  | .executeOp sym bb ba => execute_on_best_touch s sym bb ba

/-- Argument preconditions named by the claim: positive deposit amount,
    positive price and quantity on placement. -/
def opValid : PaperOp → Prop
  | .depositOp _ _ amt => 0 < amt
  | .placeOp _ _ _ _ p q _ => 0 < p ∧ 0 < q
  | .cancelOp _ _ => True
  | .executeOp _ _ _ => True

/-- State with an open order whose reservation is not backed by the balance
    table: the plain inequality 0 ≤ available ≤ total holds, yet cancelling
    frees the phantom reservation. -/
def oBad : Order :=
  { token_id := "t1"
    username := "alice"
    symbol := "BTCUSDT"
    side := "buy"
    price := 10
    quantity := 1
    status := "open"
    filled_price := none
    reason := none
    reserved_amount := 5
    created_at := 0 }

def sBad : AppState :=
  { users := []
    balances := [("alice", [("USDT", { total := 0, available := 0 })])]
    orders := [("t1", oBad)]
    open_orders_by_symbol := [("BTCUSDT", ["t1"])] }

/-- C1 counterexample: the plain balance inequality alone is not preserved —
    on a state satisfying 0 ≤ available ≤ total everywhere but whose open
    order carries a reservation the balance never backed, cancel_order pushes
    available above total. The reserve-accounting invariant Inv (which real
    executions maintain) is what rules such states out. -/
theorem balance_invariant_counterexample :
    (∀ u a, 0 ≤ (lookupBalance sBad.balances u a).available ∧
      (lookupBalance sBad.balances u a).available
        ≤ (lookupBalance sBad.balances u a).total) ∧
    ¬((lookupBalance (applyOp sBad (PaperOp.cancelOp "alice" "t1")).balances
        "alice" "USDT").available
      ≤ (lookupBalance (applyOp sBad (PaperOp.cancelOp "alice" "t1")).balances
        "alice" "USDT").total) := by
  constructor
  · intro u a
    unfold sBad lookupBalance
    by_cases hu : "alice" = u
    · simp only [alistGet, hu, if_true, if_pos rfl]
      by_cases ha : "USDT" = a
      · simp [alistGet, ha]
      · simp [alistGet, ha]
    · simp [alistGet, hu]
  · have hget : alistGet sBad.orders "t1" = some oBad := rfl
    have hrun : (applyOp sBad (PaperOp.cancelOp "alice" "t1")).balances
        = release_reserve sBad.balances "alice" "buy" "BTCUSDT" 5 := by
      show (cancel_order sBad "alice" "t1").1.balances = _
      simp [cancel_order, hget]
      rfl
    rw [hrun, release_reserve_eq]
    have hq : (if ("buy" : String) = "buy" then (split_symbol "BTCUSDT").2
        else (split_symbol "BTCUSDT").1) = "USDT" := by decide
    rw [hq, lookupBalance_updBalance]
    rw [if_pos ⟨rfl, rfl⟩]
    have hlook : lookupBalance sBad.balances "alice" "USDT"
        = { total := 0, available := 0 } := rfl
    rw [hlook]
    show ¬((0 : ℚ) + 5 ≤ 0)
    norm_num

/-- C1 amended. The four balance-mutating operations preserve the
    reserve-accounting invariant Inv (0 ≤ available, available plus the summed
    open reservations of the user and asset bounded by total, and open orders
    well-formed), given positive deposit amounts and positive price and
    quantity on placement; Inv in turn yields 0 ≤ available ≤ total for every
    user and asset after the operation. -/
theorem balance_invariant_ops (s : AppState) (op : PaperOp)
    (hInv : Inv s) (hv : opValid op) :
    Inv (applyOp s op) ∧
    ∀ u a, 0 ≤ (lookupBalance (applyOp s op).balances u a).available ∧
      (lookupBalance (applyOp s op).balances u a).available
        ≤ (lookupBalance (applyOp s op).balances u a).total := by
  have hInv2 : Inv (applyOp s op) := by
    cases op with
    | depositOp u a amt => exact inv_deposit s u a amt hInv hv
    | placeOp u tid sym side p q c =>
      exact inv_place_order s u tid sym side p q c hInv hv.1 hv.2
    | cancelOp u tid => exact inv_cancel_order s u tid hInv
    | executeOp sym bb ba => exact inv_execute s sym bb ba hInv
  refine ⟨hInv2, ?_⟩
  intro u a
  obtain ⟨hb1, hb2⟩ := inv_to_all _ hInv2 u a
  have hrs := reservedSum_nonneg (applyOp s op).orders u a hInv2.2
  exact ⟨hb1, by linarith⟩

theorem inv_sW : Inv sW := by
  constructor
  · intro kv hkv
    have hsupp : support sW = [("alice", "USDT"), ("alice", "USDT")] := by decide
    rw [hsupp] at hkv
    have hkv2 : kv = ("alice", "USDT") := by
      rcases List.mem_cons.mp hkv with h | h
      · exact h
      · rcases List.mem_cons.mp h with h2 | h2
        · exact h2
        · exact absurd h2 (List.not_mem_nil kv)
    rw [hkv2]
    constructor
    · show (0 : ℚ) ≤ (lookupBalance sW.balances "alice" "USDT").available
      rw [show lookupBalance sW.balances "alice" "USDT"
        = { total := 100, available := 80 } from rfl]
      norm_num
    · have hrsW : reservedSum sW.orders "alice" "USDT" = 20 + 0 := rfl
      show (lookupBalance sW.balances "alice" "USDT").available
          + reservedSum sW.orders "alice" "USDT"
        ≤ (lookupBalance sW.balances "alice" "USDT").total
      rw [hrsW, show lookupBalance sW.balances "alice" "USDT"
        = { total := 100, available := 80 } from rfl]
      norm_num
  · intro p hp hopen
    have hp2 : p = ("t1", oW) := by
      rcases List.mem_cons.mp hp with h | h
      · exact h
      · exact absurd h (List.not_mem_nil p)
    rw [hp2]
    refine ⟨by norm_num [oW], by norm_num [oW], ?_⟩
    show (20 : ℚ) = if oW.side = "buy" then oW.price * oW.quantity else oW.quantity
    rw [if_pos (show oW.side = "buy" from rfl)]
    norm_num [oW]

theorem balance_invariant_ops_witness :
    Inv sW ∧ opValid (PaperOp.depositOp "alice" "USDT" 5) ∧
    Inv (applyOp sW (PaperOp.depositOp "alice" "USDT" 5)) :=
  ⟨inv_sW, by norm_num [opValid],
    (balance_invariant_ops sW (PaperOp.depositOp "alice" "USDT" 5) inv_sW
      (by norm_num [opValid])).1⟩

end Router
